import Mathlib

/-!
Shallow embedding of the core of the quake3-protocol repository:
the adaptive Huffman coder (src/huffman/src/lib.rs), the server packet
parser (src/protocol/src/server.rs together with the packet value types of
src/protocol/src/lib.rs and src/protocol/src/client.rs), and the info-string
map (src/quake3/src/info.rs).

Rust machine integers are modelled as `Nat` (all the values involved are
unsigned and no wrap-around arithmetic occurs on the modelled paths; the one
signed quantity, the packet header, is modelled by its 32-bit unsigned bit
pattern).  Fallible Rust code returns `Result`, modelled as `Except`.  A Rust
panic (indexing out of bounds, `unwrap` of `None`, a failed `assert_eq!`, an
`unreachable!` arm) has no return value; every code path that can panic is
modelled in the `Option` monad with `none` as the panic outcome.
-/

set_option maxRecDepth 100000

deriving instance DecidableEq for Except

namespace Q3

/-- Arena node of the adaptive Huffman tree (`enum Node` in
src/huffman/src/lib.rs).  `NodeIndex`, `NodeWeight` and `Symbol` are
transparent wrappers in the source and are modelled directly as `Nat`. -/
inductive Node where
  | notYetTransmitted (parent : Option Nat)
  | leaf (parent : Nat) (weight : Nat) (symbol : Nat)
  | internal (parent : Option Nat) (left : Nat) (right : Nat) (weight : Nat)
deriving DecidableEq, Repr

namespace Node

/-- Mirrors `Node::parent`. -/
def parent : Node → Option Nat
  | notYetTransmitted p => p
  | leaf p _ _ => some p
  | internal p _ _ _ => p

/-- Mirrors `Node::set_parent`. -/
def setParent : Node → Nat → Node
  | notYetTransmitted _, i => notYetTransmitted (some i)
  | leaf _ w s, i => leaf i w s
  | internal _ l r w, i => internal (some i) l r w

/-- Mirrors `Node::weight`; the NYT node weighs 0. -/
def weight : Node → Nat
  | notYetTransmitted _ => 0
  | leaf _ w _ => w
  | internal _ _ _ w => w

/-- Mirrors `Node::increase_weight`; the `NotYetTransmitted` arm is
`unreachable!()` in the source, i.e. a panic, modelled as `none`. -/
def increaseWeight : Node → Option Node
  | notYetTransmitted _ => none
  | leaf p w s => some (leaf p (w + 1) s)
  | internal p l r w => some (internal p l r (w + 1))

end Node

/-- `MAX_SYMBOLS` of the source: number of byte values. -/
def MAX_SYMBOLS : Nat := 256

/-- `MAX_NODES` of the source: capacity of the node arena. -/
def MAX_NODES : Nat := MAX_SYMBOLS * 2 - 1

/-- The coder state (`struct Huffman`): the fixed-capacity arena, the
symbol-to-leaf table and the two cursors. -/
structure Huffman where
  tree : List (Option Node)
  symbol_index : List (Option Nat)
  nyt : Nat
  next : Nat
deriving DecidableEq, Repr

namespace Huffman

/-- `Huffman::ROOT`. -/
def ROOT : Nat := 0

/-- Mirrors `Huffman::adaptive()`. -/
def adaptive : Huffman :=
  { tree := (List.replicate MAX_NODES (none : Option Node)).set ROOT
      (some (Node.notYetTransmitted none))
  , symbol_index := List.replicate MAX_SYMBOLS (none : Option Nat)
  , nyt := ROOT
  , next := ROOT + 1 }

/-- Mirrors `self.tree[i].as_ref().unwrap()` (`Huffman::node_ref`): `none`
models the panic, either from an out-of-bounds index or from unwrapping an
empty slot. -/
def nodeRef (h : Huffman) (i : Nat) : Option Node :=
  (h.tree.get? i).bind id

/-- Mirrors `self.tree[i] = v`: a `Vec` index assignment panics (`none`) when
the index is out of bounds. -/
def treeSet (h : Huffman) (i : Nat) (v : Option Node) : Option Huffman :=
  if i < h.tree.length then some { h with tree := h.tree.set i v } else none

/-- In-place mutation through `Huffman::node_mut` (which unwraps). -/
def modifyNode (h : Huffman) (i : Nat) (f : Node → Option Node) : Option Huffman := do
  let n ← h.nodeRef i
  let n' ← f n
  h.treeSet i (some n')

/-- Mirrors `self.symbol_index[s]` (an index panic is impossible in the
source because `s` comes from a `u8`). -/
def symbolIndexGet (h : Huffman) (s : Nat) : Option (Option Nat) :=
  h.symbol_index.get? s

/-- Mirrors `self.symbol_index[s] = v`. -/
def symbolIndexSet (h : Huffman) (s : Nat) (v : Option Nat) : Option Huffman :=
  if s < h.symbol_index.length then
    some { h with symbol_index := h.symbol_index.set s v }
  else none

/-- The scan of `Huffman::block_leader`, walking the index down while the
weight matches; the argument is the current scan position. -/
def blockLeaderGo (h : Huffman) (w : Nat) : Nat → Option Nat
  | 0 => do
    let n ← h.nodeRef 0
    if n.weight = w then some 0 else some 1
  | i + 1 => do
    let n ← h.nodeRef (i + 1)
    if n.weight = w then h.blockLeaderGo w i else some (i + 2)

/-- Mirrors `Huffman::block_leader`. -/
def block_leader (h : Huffman) (index : Nat) : Option Nat := do
  let n ← h.nodeRef index
  h.blockLeaderGo n.weight index

/-- Mirrors `Huffman::swap_nodes`; the `NotYetTransmitted` match arms are
`unreachable!()` panics. -/
def swap_nodes (h : Huffman) (a b : Nat) : Option Huffman := do
  let na ← h.nodeRef a
  let a_parent ← na.parent
  let nb ← h.nodeRef b
  let b_parent ← nb.parent
  let sa ← h.tree.get? a
  let sb ← h.tree.get? b
  let h ← h.treeSet a sb
  let h ← h.treeSet b sa
  let h ← h.modifyNode a (fun n => some (n.setParent a_parent))
  let h ← h.modifyNode b (fun n => some (n.setParent b_parent))
  let h ← do
    let n ← h.nodeRef a
    match n with
    | .notYetTransmitted _ => none
    | .leaf _ _ sym => h.symbolIndexSet sym (some a)
    | .internal _ l r _ => do
      let h ← h.modifyNode l (fun n => some (n.setParent a))
      h.modifyNode r (fun n => some (n.setParent a))
  let n ← h.nodeRef b
  match n with
  | .notYetTransmitted _ => none
  | .leaf _ _ sym => h.symbolIndexSet sym (some b)
  | .internal _ l r _ => do
    let h ← h.modifyNode l (fun n => some (n.setParent b))
    h.modifyNode r (fun n => some (n.setParent b))

/-- The `while let Some(node_index) = node` promotion loop of
`Huffman::insert`.  The loop climbs parent links; in every state the source
can reach, parent indices strictly decrease, so the chain length is below the
arena capacity and a fuel of `MAX_NODES` never runs out; exhausted fuel
(`none`) models a diverging parent cycle, which is also no return value. -/
def insertLoop (h : Huffman) : Option Nat → Nat → Option Huffman
  | none, _ => some h
  | some _, 0 => none
  | some node_index, fuel + 1 => do
    let leader ← h.block_leader node_index
    let n ← h.nodeRef node_index
    let (h, node_index) ←
      if leader ≠ node_index ∧ some leader ≠ n.parent then do
        let h' ← h.swap_nodes node_index leader
        some (h', leader)
      else
        some (h, node_index)
    let h ← h.modifyNode node_index Node.increaseWeight
    let n ← h.nodeRef node_index
    h.insertLoop n.parent fuel

/-- Mirrors `Huffman::insert`. -/
def insert (h : Huffman) (symbol : Nat) : Option Huffman := do
  let symbol_index ← h.symbolIndexGet symbol
  match symbol_index with
  | none =>
    let internal_index := h.nyt
    let leaf_index := h.next
    let nyt_index := h.next + 1
    let h := { h with next := h.next + 2 }
    let nytNode ← h.nodeRef h.nyt
    let nyt_parent := nytNode.parent
    let internal : Node := .internal nyt_parent nyt_index leaf_index 1
    let leaf : Node := .leaf internal_index 1 symbol
    let nyt : Node := .notYetTransmitted (some internal_index)
    let h ← h.symbolIndexSet symbol (some leaf_index)
    let h ← h.treeSet internal_index (some internal)
    let h ← h.treeSet leaf_index (some leaf)
    let h ← h.treeSet nyt_index (some nyt)
    let h := { h with nyt := nyt_index }
    h.insertLoop nyt_parent MAX_NODES
  | some idx => h.insertLoop (some idx) MAX_NODES

/-- Inserting a whole list of symbols in order, propagating a panic. -/
def insertSeq (h : Huffman) : List Nat → Option Huffman
  | [] => some h
  | s :: rest => do
    let h ← h.insert s
    h.insertSeq rest

/-- Mirrors `Huffman::emit`: recurse to the root along parent links, then on
the way back push one bit per edge (0 = left child, 1 = right child).  The
`unreachable!()` arms and a child that is neither `left` nor `right` are
panics.  Parent chains of reachable states are shorter than the arena, so
`MAX_NODES` fuel never runs out. -/
def emit (h : Huffman) : Nat → Nat → Option Nat → Option (List Bool)
  | 0, _, _ => none
  | fuel + 1, node, child => do
    let n ← h.nodeRef node
    let pre ← match n.parent with
      | some p => h.emit fuel p (some node)
      | none => some []
    match child with
    | none => some pre
    | some c =>
      match n with
      | .internal _ l r _ =>
        if c = l then some (pre ++ [false])
        else if c = r then some (pre ++ [true])
        else none
      | _ => none

/-- The eight raw bits of a fresh symbol, pushed high bit first
(`bits.push((symbol >> 7) & 1 != 0); …`). -/
def bitsOfByteMSB (s : Nat) : List Bool :=
  [ ((s >>> 7) &&& 1) != 0
  , ((s >>> 6) &&& 1) != 0
  , ((s >>> 5) &&& 1) != 0
  , ((s >>> 4) &&& 1) != 0
  , ((s >>> 3) &&& 1) != 0
  , ((s >>> 2) &&& 1) != 0
  , ((s >>> 1) &&& 1) != 0
  , ((s >>> 0) &&& 1) != 0 ]

/-- Mirrors `Huffman::encode`, returning the final coder state and the
accumulated bit sequence. -/
def encode : Huffman → List Nat → Option (Huffman × List Bool)
  | h, [] => some (h, [])
  | h, s :: rest => do
    let si ← h.symbolIndexGet s
    let bits ← match si with
      | some idx => h.emit MAX_NODES idx none
      | none => do
        let nytBits ← h.emit MAX_NODES h.nyt none
        some (nytBits ++ bitsOfByteMSB s)
    let h ← h.insert s
    let (h, more) ← h.encode rest
    some (h, bits ++ more)

/-- Reading the eight raw bits after an NYT escape in `Huffman::decode`:
each `bits.next().unwrap()` panics (`none`) when the stream is exhausted;
the first bit read lands in bit 7 of the value. -/
def read8 : List Bool → Option (Nat × List Bool)
  | b0 :: b1 :: b2 :: b3 :: b4 :: b5 :: b6 :: b7 :: rest =>
    some ((cond b0 1 0) <<< 7 ||| (cond b1 1 0) <<< 6 ||| (cond b2 1 0) <<< 5 |||
      (cond b3 1 0) <<< 4 ||| (cond b4 1 0) <<< 3 ||| (cond b5 1 0) <<< 2 |||
      (cond b6 1 0) <<< 1 ||| (cond b7 1 0), rest)
  | _ => none

/-- The `while written < length` loop of `Huffman::decode`.  Each iteration
either consumes at least one stream bit or produces one output byte, so
`length + bits.length` fuel never runs out. -/
def decodeGo : Nat → Huffman → List Bool → Nat → Nat → Nat → List Nat →
    Option (Huffman × List Nat)
  | fuel, h, bits, node_index, length, written, out =>
    if written < length then
      match fuel with
      | 0 => none
      | fuel + 1 => do
        let n ← h.nodeRef node_index
        match n with
        | .notYetTransmitted _ => do
          let (value, bits) ← read8 bits
          let h ← h.insert value
          decodeGo fuel h bits ROOT length (written + 1) (out ++ [value])
        | .leaf _ _ sym => do
          let h ← h.insert sym
          decodeGo fuel h bits ROOT length (written + 1) (out ++ [sym])
        | .internal _ l r _ =>
          match bits with
          | [] => none
          | b :: bits => decodeGo fuel h bits (if b then r else l) length written out
    else some (h, out)

/-- Mirrors `Huffman::decode` on an already converted bit stream (for a byte
slice input the `try_into` conversion always succeeds); the produced bytes
are returned instead of being appended to a caller buffer. -/
def decode (h : Huffman) (bits : List Bool) (length : Nat) :
    Option (Huffman × List Nat) :=
  decodeGo (length + bits.length) h bits ROOT length 0 []

end Huffman

/-- One byte of `BitVec<u8, Lsb0>::as_raw_slice`: the first bit of the chunk
is the least significant bit. -/
def byteOfBitsLsb (bs : List Bool) : Nat :=
  bs.foldr (fun b acc => (cond b 1 0) + 2 * acc) 0

/-- `BitVec<u8, Lsb0>::as_raw_slice`: pack the bit sequence into bytes,
eight bits per byte, first bit least significant, final byte zero-padded. -/
def packBits : List Bool → List Nat
  | [] => []
  | b0 :: b1 :: b2 :: b3 :: b4 :: b5 :: b6 :: b7 :: rest =>
    byteOfBitsLsb [b0, b1, b2, b3, b4, b5, b6, b7] :: packBits rest
  | bs => [byteOfBitsLsb bs]

/-- The byte sequence of an ASCII string literal (for ASCII the UTF-8 bytes
are the code points). -/
def strBytes (s : String) : List Nat :=
  s.data.map (fun c => c.toNat)

/-! ### Packet framing (src/quake3/src/net/chan.rs, src/protocol/src) -/

/-- `MAX_PACKETLEN` (src/quake3/src/net/chan.rs). -/
def MAX_PACKETLEN : Nat := 1400

/-- `FRAGMENT_SIZE` (src/quake3/src/net/chan.rs). -/
def FRAGMENT_SIZE : Nat := MAX_PACKETLEN - 100

/-- The little-endian 32-bit header read by `payload.get_i32_le()`, as its
unsigned bit pattern. -/
def headerLE (b0 b1 b2 b3 : Nat) : Nat :=
  b0 + 256 * b1 + 65536 * b2 + 16777216 * b3

/-- The reserved connectionless header `CONNECTIONLESS_SEQUENCE =
0xFFFFFFFF` as a bit pattern. -/
def CONNECTIONLESS_SEQUENCE : Nat := 0xFFFFFFFF

/-- `PacketSequence::is_fragmented`: `bits & FRAGMENT_BIT != 0`, i.e. the
top bit of the 32-bit pattern. -/
def isFragmented (bits : Nat) : Bool := Nat.testBit bits 31

/-- `PacketSequence::number`: `bits & !FRAGMENT_BIT`, the low 31 bits. -/
def sequenceNumber (bits : Nat) : Nat := bits % 2 ^ 31

/-- `PacketKind::parse` (src/protocol/src/lib.rs). -/
inductive PacketKind where
  | connectionless
  | sequenced (sequence : Nat)
deriving DecidableEq, Repr

/-- Mirrors `PacketKind::parse`. -/
def PacketKind.parse (bits : Nat) : PacketKind :=
  if bits = CONNECTIONLESS_SEQUENCE then .connectionless else .sequenced bits

/-- The error enum of `parse_packet` (`InvalidPacketError` in
src/protocol/src/server.rs); payload fields of the wrapped errors are not
inspected by any claim and are dropped. -/
inductive InvalidPacketError where
  | invalidConnectionlessPacket
  | invalidSequencedPacket
  | invalidQPort
  | invalidFragmentStart
  | invalidFragmentLength
  | invalidFragmentedPacket
  | invalidSize
deriving DecidableEq, Repr

/-- Incoming sequenced packet (client-side value parsed by `parse_packet`). -/
structure SequencedPacket where
  sequence : Nat
  qport : Nat
  payload : List Nat
deriving DecidableEq, Repr

/-- Incoming fragmented packet (client-side value parsed by `parse_packet`). -/
structure FragmentedPacket where
  sequence : Nat
  qport : Nat
  fragment_start : Nat
  fragment_length : Nat
  payload : List Nat
deriving DecidableEq, Repr

/-- `Packet` (src/protocol/src/server.rs). -/
inductive Packet where
  | connectionless (payload : List Nat)
  | sequenced (p : SequencedPacket)
  | fragmented (p : FragmentedPacket)
deriving DecidableEq, Repr

/-- `ConnectionlessPacket::new`: rejects payloads longer than
`MAX_PACKETLEN`. -/
def connectionlessPacketNew (payload : List Nat) :
    Except InvalidPacketError (List Nat) :=
  if payload.length > MAX_PACKETLEN then .error .invalidConnectionlessPacket
  else .ok payload

/-- `QPort::new`: zero is invalid. -/
def qportNew (port : Nat) : Except InvalidPacketError Nat :=
  if port = 0 then .error .invalidQPort else .ok port

/-- `FragmentStart::new`: a start at or beyond `MAX_PACKETLEN` is invalid. -/
def fragmentStartNew (start : Nat) : Except InvalidPacketError Nat :=
  if start ≥ MAX_PACKETLEN then .error .invalidFragmentStart else .ok start

/-- `FragmentLength::new`: a length beyond `FRAGMENT_SIZE` is invalid. -/
def fragmentLengthNew (length : Nat) : Except InvalidPacketError Nat :=
  if length > FRAGMENT_SIZE then .error .invalidFragmentLength else .ok length

/-- The client-side `SequencedPacket::new`: payload must be shorter than
`FRAGMENT_SIZE`. -/
def sequencedPacketNew (sequence qport : Nat) (payload : List Nat) :
    Except InvalidPacketError SequencedPacket :=
  if payload.length ≥ FRAGMENT_SIZE then .error .invalidSequencedPacket
  else .ok { sequence, qport, payload }

/-- The client-side `FragmentedPacket::new`: the payload length is converted
into a `FragmentLength`, failing when above `FRAGMENT_SIZE`. -/
def fragmentedPacketNew (sequence qport fragment_start : Nat) (payload : List Nat) :
    Except InvalidPacketError FragmentedPacket :=
  if payload.length > FRAGMENT_SIZE then .error .invalidFragmentedPacket
  else .ok { sequence, qport, fragment_start, fragment_length := payload.length, payload }

/-- The little-endian `u16` read by `payload.get_u16_le()`. -/
def u16LE (b0 b1 : Nat) : Nat := b0 + 256 * b1

/-- Mirrors `parse_packet` (src/protocol/src/server.rs).  The
`assert_eq!(usize::from(fragment_info.length()), payload.remaining())` is a
panic when the two sides differ, modelled as `none`. -/
def parse_packet (payload : List Nat) :
    Option (Except InvalidPacketError Packet) :=
  match payload with
  | b0 :: b1 :: b2 :: b3 :: rest =>
    let packet_kind := PacketKind.parse (headerLE b0 b1 b2 b3)
    match packet_kind with
    | .connectionless =>
      match connectionlessPacketNew rest with
      | .error e => some (.error e)
      | .ok p => some (.ok (.connectionless p))
    | .sequenced sequence =>
      match rest with
      | q0 :: q1 :: rest =>
        match qportNew (u16LE q0 q1) with
        | .error e => some (.error e)
        | .ok qport =>
          if isFragmented sequence then
            match rest with
            | s0 :: s1 :: rest =>
              match fragmentStartNew (u16LE s0 s1) with
              | .error e => some (.error e)
              | .ok fragment_start =>
                match rest with
                | l0 :: l1 :: rest =>
                  match fragmentLengthNew (u16LE l0 l1) with
                  | .error e => some (.error e)
                  | .ok fragment_length =>
                    if fragment_length = rest.length then
                      match fragmentedPacketNew (sequenceNumber sequence) qport
                          fragment_start rest with
                      | .error e => some (.error e)
                      | .ok p => some (.ok (.fragmented p))
                    else none
                | _ => some (.error .invalidSize)
            | _ => some (.error .invalidSize)
          else
            match sequencedPacketNew (sequenceNumber sequence) qport rest with
            | .error e => some (.error e)
            | .ok p => some (.ok (.sequenced p))
      | _ => some (.error .invalidSize)
  | _ => some (.error .invalidSize)

/-! ### Connectionless commands (src/protocol/src/server.rs) -/

/-- `ConnectionlessCommand`. -/
inductive ConnectionlessCommand where
  | getStatus
  | getInfo
  | getChallenge
  | connect
  | ipAuthorize
deriving DecidableEq, Repr

/-- `GETSTATUS_COMMAND`. -/
def GETSTATUS_COMMAND : List Nat := strBytes "getstatus"

/-- `GETINFO_COMMAND`. -/
def GETINFO_COMMAND : List Nat := strBytes "getinfo"

/-- `GETCHALLENGE_COMMAND`. -/
def GETCHALLENGE_COMMAND : List Nat := strBytes "getchallenge"

/-- `CONNECT_COMMAND`. -/
def CONNECT_COMMAND : List Nat := strBytes "connect"

/-- `IPAUTHORIZE_COMMAND`. -/
def IPAUTHORIZE_COMMAND : List Nat := strBytes "ipAuthorize"

/-- `ParseCommandError`. -/
inductive ParseCommandError where
  | mk
deriving DecidableEq, Repr

/-- Mirrors `ConnectionlessCommand::parse`: an exact byte-wise match of the
incoming token against the five command constants. -/
def ConnectionlessCommand.parse (bytes : List Nat) :
    Except ParseCommandError ConnectionlessCommand :=
  if bytes = GETSTATUS_COMMAND then .ok .getStatus
  else if bytes = GETINFO_COMMAND then .ok .getInfo
  else if bytes = GETCHALLENGE_COMMAND then .ok .getChallenge
  else if bytes = CONNECT_COMMAND then .ok .connect
  else if bytes = IPAUTHORIZE_COMMAND then .ok .ipAuthorize
  else .error .mk

/-- Byte-wise ASCII lowercasing, used to express the set of letter-casing
variants of a command token. -/
def lowerByte (b : Nat) : Nat :=
  if 65 ≤ b ∧ b ≤ 90 then b + 32 else b

/-- `casingVariant s t` holds when `t` is `s` with the letter-casing of some
positions changed: position by position the bytes agree after lowercasing
(ASCII lowercasing is injective away from the letter pairs, so this captures
exactly the letter-casing variants). -/
def casingVariant (s t : List Nat) : Prop :=
  s.map lowerByte = t.map lowerByte

instance (s t : List Nat) : Decidable (casingVariant s t) := by
  unfold casingVariant
  infer_instance

/-! ### Info strings (src/quake3/src/info.rs) -/

/-- `BACKSLASH`. -/
def BACKSLASH : Nat := 92

/-- `InfoKv::encoded_size`: one leading backslash plus the bytes. -/
def encodedSize (kv : List Nat) : Nat := 1 + kv.length

/-- `InfoMap`, keys and values taken as their byte content; the `IndexMap`
is an insertion-ordered association list with unique keys. -/
structure InfoMap where
  entries : List (List Nat × List Nat)
deriving DecidableEq, Repr

/-- The empty map (`InfoMap::new` / `with_capacity`). -/
def InfoMap.empty : InfoMap := ⟨[]⟩

/-- `indexmap::IndexMap::insert`: replace in place and return the previous
value when the key exists, else append. -/
def imapInsert : List (List Nat × List Nat) → List Nat → List Nat →
    Option (List Nat) × List (List Nat × List Nat)
  | [], k, v => (none, [(k, v)])
  | (k', v') :: rest, k, v =>
    if k' = k then (some v', (k', v) :: rest)
    else
      let (old, rest') := imapInsert rest k v
      (old, (k', v') :: rest')

/-- Mirrors `InfoMap::encoded_size(&self, ignore)`: the summed encoded size
of all entries whose key differs from `ignore`. -/
def InfoMap.encoded_size (m : InfoMap) (ignore : List Nat) : Nat :=
  (m.entries.filter (fun e => e.1 ≠ ignore)).foldl
    (fun acc e => acc + encodedSize e.1 + encodedSize e.2) 0

/-- Mirrors `InfoMap::try_insert` for limit `L`; the returned map is the
mutated `self` (unchanged in the error case). -/
def InfoMap.try_insert (L : Nat) (m : InfoMap) (key value : List Nat) :
    Except (List Nat × List Nat) (Option (List Nat)) × InfoMap :=
  let size := m.encoded_size key
  if size + encodedSize key + encodedSize value > L then
    (.error (key, value), m)
  else
    let (old, entries) := imapInsert m.entries key value
    (.ok old, ⟨entries⟩)

/-- Looking a key up in the map (by entry order). -/
def InfoMap.lookup (m : InfoMap) (k : List Nat) : Option (List Nat) :=
  (m.entries.find? (fun e => e.1 = k)).map (fun e => e.2)

/-- Mirrors `parse_infostring`: a backslash, then at least one byte up to
the next backslash, validated by `InfoString::from_bytes` (no backslash —
vacuous after `take_while` — and no NUL).  `none` is a parser backtrack. -/
def parse_infostring (input : List Nat) : Option (List Nat × List Nat) :=
  match input with
  | [] => none
  | c :: rest =>
    if c = BACKSLASH then
      let s := rest.takeWhile (fun b => b != BACKSLASH)
      if s.length ≥ 1 then
        if BACKSLASH ∈ s then none
        else if 0 ∈ s then none
        else some (s, rest.dropWhile (fun b => b != BACKSLASH))
      else none
    else none

/-- The `repeat(0.., (parse_infostring, parse_infostring))` combinator: pairs
are accumulated until the pair parser fails, at which point the input is
rewound to the start of the failed attempt.  A successful pair consumes at
least four bytes, so `input.length` fuel never runs out. -/
def parsePairsGo : Nat → List Nat → List (List Nat × List Nat) × List Nat
  | 0, input => ([], input)
  | fuel + 1, input =>
    match parse_infostring input with
    | none => ([], input)
    | some (k, rest1) =>
      match parse_infostring rest1 with
      | none => ([], input)
      | some (v, rest2) =>
        let (ps, rest) := parsePairsGo fuel rest2
        ((k, v) :: ps, rest)

/-- All leading `\KEY\VALUE` groups of the input and the unconsumed rest. -/
def parsePairs (input : List Nat) : List (List Nat × List Nat) × List Nat :=
  parsePairsGo input.length input

/-- The `for (k, v) in entries { info.try_insert(k, v)? }` loop of
`parse_infostring_map`: a `LimitError` aborts with the offending pair. -/
def insertAll (L : Nat) (m : InfoMap) :
    List (List Nat × List Nat) → Except (List Nat × List Nat) InfoMap
  | [] => .ok m
  | (k, v) :: rest =>
    match (m.try_insert L k v).1 with
    | .error e => .error e
    | .ok _ => insertAll L (m.try_insert L k v).2 rest

/-- `ParseError` of the info parser. -/
inductive ParseError where
  | mk
deriving DecidableEq, Repr

/-- Mirrors `InfoMap::parse` for limit `L`: run the repeated pair parser,
fold the pairs through `try_insert`, and require — as `Parser::parse` does —
that the whole input was consumed. -/
def InfoMap.parse (L : Nat) (bytes : List Nat) : Except ParseError InfoMap :=
  let (entries, rest) := parsePairs bytes
  match insertAll L InfoMap.empty entries with
  | .error _ => .error .mk
  | .ok m => if rest = [] then .ok m else .error .mk

/-- `INFO_LIMIT` (`MAX_INFO_STRING`). -/
def INFO_LIMIT : Nat := 1024

/-- The prospective total encoded size in the words of the specification:
each entry of the map contributes `(1+len k) + (1+len v)`, the candidate's
size replacing the old entry's size when the key is already present.  This
definition follows the spec; the code's `try_insert` computes its budget
differently (ignore-filter plus candidate) and the two are compared in the
C6 theorem. -/
def prospectiveTotalSpec (m : InfoMap) (key value : List Nat) : Nat :=
  (m.entries.map (fun e =>
      if e.1 = key then encodedSize key + encodedSize value
      else encodedSize e.1 + encodedSize e.2)).sum +
    (if m.entries.any (fun e => e.1 = key) then 0
     else encodedSize key + encodedSize value)

/-- Serialization of a pair list into `\k\v\k\v…` form. -/
def encodePairs : List (List Nat × List Nat) → List Nat
  | [] => []
  | (k, v) :: rest => BACKSLASH :: k ++ BACKSLASH :: v ++ encodePairs rest

/-- A byte string usable as an info key or value: nonempty, no NUL, no
backslash. -/
def ValidInfoStr (s : List Nat) : Prop :=
  s ≠ [] ∧ BACKSLASH ∉ s ∧ 0 ∉ s

instance (s : List Nat) : Decidable (ValidInfoStr s) := by
  unfold ValidInfoStr
  infer_instance

/-- The value of the last `\k\v` group for key `k` in a pair list. -/
def lastLookup (ps : List (List Nat × List Nat)) (k : List Nat) : Option (List Nat) :=
  (ps.reverse.find? (fun e => e.1 = k)).map (fun e => e.2)

/-! ### Helper lemmas -/


/-! ### Invariants of the adaptive Huffman coder: definitions
The sibling property and tree-consistency claims (C4, C5) are settled by a
loop invariant for the promotion loop of `insert`; these predicates state
it. -/

/-- The weight stored at arena slot `i` (0 for an empty slot and for NYT). -/
def wAt (h : Huffman) (i : Nat) : Nat :=
  ((h.nodeRef i).map Node.weight).getD 0

/-- Structural well-formedness of a coder state: the arena is the fixed-size
populated prefix `[0, next)`, the NYT leaf sits at the top slot `next - 1`
with its parent two slots below, every internal's children are the adjacent
pair `(right, right + 1)` above it with consistent back-pointers, weights of
leaves and internals are positive, and `symbol_index` is exactly the
leaf-symbol table. -/
structure WFcore (h : Huffman) : Prop where
  tree_len : h.tree.length = MAX_NODES
  sym_len : h.symbol_index.length = MAX_SYMBOLS
  next_le : h.next ≤ MAX_NODES
  nyt_eq : h.nyt + 1 = h.next
  pop_lt : ∀ i, i < h.next → ∃ nd, h.nodeRef i = some nd
  pop_ge : ∀ i, h.next ≤ i → h.nodeRef i = none
  nyt_is : ∃ p, h.nodeRef h.nyt = some (.notYetTransmitted p)
  nyt_unique : ∀ i p, h.nodeRef i = some (.notYetTransmitted p) → i = h.nyt
  root_par : ∀ nd, h.nodeRef 0 = some nd → nd.parent = none
  par_exists : ∀ i nd, h.nodeRef i = some nd → i ≠ 0 →
    ∃ p, nd.parent = some p ∧ p < i ∧
      ∃ pp l r w, h.nodeRef p = some (.internal pp l r w) ∧ (i = l ∨ i = r)
  child_link : ∀ i pp l r w, h.nodeRef i = some (.internal pp l r w) →
    l = r + 1 ∧ i < r ∧ l < h.next ∧
    (∃ nl, h.nodeRef l = some nl ∧ nl.parent = some i) ∧
    (∃ nr, h.nodeRef r = some nr ∧ nr.parent = some i)
  nyt_par_adj : ∀ p, h.nodeRef h.nyt = some (.notYetTransmitted (some p)) →
    p + 3 = h.next
  leaf_pos : ∀ i p w s, h.nodeRef i = some (.leaf p w s) → 1 ≤ w
  int_pos : ∀ i pp l r w, h.nodeRef i = some (.internal pp l r w) → 1 ≤ w
  sym_to_leaf : ∀ s i, h.symbol_index.get? s = some (some i) →
    ∃ p w, h.nodeRef i = some (.leaf p w s)
  leaf_to_sym : ∀ i p w s, h.nodeRef i = some (.leaf p w s) →
    h.symbol_index.get? s = some (some i)

/-- Internal weights are the sums of their children's weights, except that
the node the promotion loop is currently standing on (if it is an internal)
is short by exactly one. -/
def sumsExcept (h : Huffman) (cur : Option Nat) : Prop :=
  ∀ i pp l r w, h.nodeRef i = some (.internal pp l r w) →
    if cur = some i then w + 1 = wAt h l + wAt h r else w = wAt h l + wAt h r

/-- The sibling property: weights are non-increasing in arena order. -/
def orderAll (h : Huffman) : Prop :=
  ∀ i j, i < j → j < h.next → wAt h j ≤ wAt h i

/-- The transient shape after the guard case of the promotion loop: the NYT
sibling `next - 2` was just incremented while the loop stands on its parent
`next - 3`, the single slot whose weight is one less than the slot above it;
everything below outweighs it strictly, all other pairs are ordered. -/
def ModeB (h : Huffman) (cur : Option Nat) : Prop :=
  ∃ c, cur = some c ∧ c + 3 = h.next ∧
    wAt h (c + 1) = wAt h c + 1 ∧
    (∀ y, y < c → wAt h c < wAt h y) ∧
    (∀ i j, i < j → j < h.next → j ≠ c + 1 → wAt h j ≤ wAt h i)

/-- The promotion-loop invariant at the start of an iteration standing on
`cur`. -/
def LoopInv (h : Huffman) (cur : Option Nat) : Prop :=
  WFcore h ∧ sumsExcept h cur ∧
  (∀ c, cur = some c → c < h.next ∧
    ∃ nd, h.nodeRef c = some nd ∧ ∀ q, nd ≠ .notYetTransmitted q) ∧
  ((orderAll h ∧ ∀ c, cur = some c → c + 3 ≠ h.next) ∨ ModeB h cur)

/-- Full well-formedness: the loop invariant with no pending node. -/
def WF (h : Huffman) : Prop := LoopInv h none

/-- Slot `i` is a child pointer of node `n`. -/
def ChildOf (n : Node) (i : Nat) : Prop :=
  ∃ pp l r w, n = .internal pp l r w ∧ (i = l ∨ i = r)

/-- Pointwise description of one fixup block: only the parent pointers of
`n`'s children and (for a leaf) one `symbol_index` entry change, the
children now pointing at slot `x`. -/
structure FixShape (h h' : Huffman) (x : Nat) (n : Node) : Prop where
  nyt_eq : h'.nyt = h.nyt
  next_eq : h'.next = h.next
  tlen : h'.tree.length = h.tree.length
  slen : h'.symbol_index.length = h.symbol_index.length
  at_other : ∀ i, ¬ ChildOf n i → h'.nodeRef i = h.nodeRef i
  at_child : ∀ i, ChildOf n i →
    h'.nodeRef i = (h.nodeRef i).map (fun m => m.setParent x)
  sym_other : ∀ s, (∀ p w, n ≠ .leaf p w s) →
    h'.symbol_index.get? s = h.symbol_index.get? s
  sym_leaf : ∀ p w s, n = .leaf p w s → h'.symbol_index.get? s = some (some x)

/-- Pointwise description of a successful `swap_nodes h a b = some h2`: the
nodes at `a` and `b` trade slots (keeping the positional parent pointers
`pa`, `pb`), the children of the two moved nodes point at the new slots, a
moved leaf's `symbol_index` entry follows it, and nothing else changes. -/
structure SwapShape (h h2 : Huffman) (a b pa pb : Nat) (na nb : Node) : Prop where
  nyt_eq : h2.nyt = h.nyt
  next_eq : h2.next = h.next
  tlen : h2.tree.length = h.tree.length
  slen : h2.symbol_index.length = h.symbol_index.length
  at_a : h2.nodeRef a = some (nb.setParent pa)
  at_b : h2.nodeRef b = some (na.setParent pb)
  at_other : ∀ i, i ≠ a → i ≠ b → ¬ ChildOf na i → ¬ ChildOf nb i →
    h2.nodeRef i = h.nodeRef i
  at_cb : ∀ i, ChildOf nb i → h2.nodeRef i = (h.nodeRef i).map (fun m => m.setParent a)
  at_ca : ∀ i, ChildOf na i → h2.nodeRef i = (h.nodeRef i).map (fun m => m.setParent b)
  sym_other : ∀ s, (∀ p w, na ≠ .leaf p w s) → (∀ p w, nb ≠ .leaf p w s) →
    h2.symbol_index.get? s = h.symbol_index.get? s
  sym_b : ∀ p w s, nb = .leaf p w s → h2.symbol_index.get? s = some (some a)
  sym_a : ∀ p w s, na = .leaf p w s → h2.symbol_index.get? s = some (some b)

theorem takeWhile_append_all {p : Nat → Bool} (s t : List Nat)
    (hs : ∀ b ∈ s, p b = true) (ht : ∀ c ∈ t.head?, p c = false) :
    (s ++ t).takeWhile p = s := by
  induction s with
  | nil =>
    cases t with
    | nil => rfl
    | cons c t' => simp [List.takeWhile_cons, ht c rfl]
  | cons a s ih =>
    have ha : p a = true := hs a (by simp)
    simp only [List.cons_append, List.takeWhile_cons, ha, if_true]
    rw [ih (fun b hb => hs b (by simp [hb]))]

theorem dropWhile_append_all {p : Nat → Bool} (s t : List Nat)
    (hs : ∀ b ∈ s, p b = true) (ht : ∀ c ∈ t.head?, p c = false) :
    (s ++ t).dropWhile p = t := by
  induction s with
  | nil =>
    cases t with
    | nil => rfl
    | cons c t' => simp [List.dropWhile_cons, ht c rfl]
  | cons a s ih =>
    have ha : p a = true := hs a (by simp)
    simp only [List.cons_append, List.dropWhile_cons, ha, if_true]
    exact ih (fun b hb => hs b (by simp [hb]))

theorem parse_infostring_encoded (s rest : List Nat) (hs : ValidInfoStr s)
    (hrest : ∀ c ∈ rest.head?, c = BACKSLASH) :
    parse_infostring (BACKSLASH :: (s ++ rest)) = some (s, rest) := by
  obtain ⟨hne, hbs, hnul⟩ := hs
  have hall : ∀ b ∈ s, (b != BACKSLASH) = true := by
    intro b hb
    simp only [bne_iff_ne, ne_eq]
    intro hbeq
    exact hbs (hbeq ▸ hb)
  have hhead : ∀ c ∈ rest.head?, (c != BACKSLASH) = false := by
    intro c hc
    simp [hrest c hc]
  have htake : (s ++ rest).takeWhile (fun b => b != BACKSLASH) = s :=
    takeWhile_append_all s rest hall hhead
  have hdrop : (s ++ rest).dropWhile (fun b => b != BACKSLASH) = rest :=
    dropWhile_append_all s rest hall hhead
  have hlen : 1 ≤ s.length := by
    cases s with
    | nil => exact absurd rfl hne
    | cons a s => simp
  simp only [parse_infostring, if_pos rfl]
  rw [htake, hdrop]
  simp only [if_pos hlen]
  simp [hbs, hnul]

theorem encodePairs_head (ps : List (List Nat × List Nat)) :
    ∀ c ∈ (encodePairs ps).head?, c = BACKSLASH := by
  cases ps with
  | nil => intro c hc; simp [encodePairs] at hc
  | cons p rest =>
    intro c hc
    obtain ⟨k, v⟩ := p
    simp only [encodePairs, List.cons_append, List.head?_cons, Option.mem_def,
      Option.some_inj] at hc
    exact hc.symm

theorem parsePairsGo_encoded (ps : List (List Nat × List Nat)) :
    ∀ fuel, (encodePairs ps).length ≤ fuel →
      (∀ p ∈ ps, ValidInfoStr p.1 ∧ ValidInfoStr p.2) →
      parsePairsGo fuel (encodePairs ps) = (ps, []) := by
  induction ps with
  | nil =>
    intro fuel _ _
    cases fuel with
    | zero => rfl
    | succ fuel => simp [parsePairsGo, parse_infostring, encodePairs]
  | cons p rest ih =>
    intro fuel hfuel hwf
    obtain ⟨k, v⟩ := p
    obtain ⟨hk, hv⟩ := hwf (k, v) (by simp)
    have hlen : (encodePairs ((k, v) :: rest)).length =
        2 + k.length + v.length + (encodePairs rest).length := by
      simp [encodePairs]
      omega
    cases fuel with
    | zero => simp [hlen] at hfuel
    | succ fuel =>
      have h1 : parse_infostring (encodePairs ((k, v) :: rest)) =
          some (k, BACKSLASH :: (v ++ encodePairs rest)) := by
        have := parse_infostring_encoded k (BACKSLASH :: (v ++ encodePairs rest)) hk
          (by intro c hc; simpa using hc.symm)
        simpa [encodePairs] using this
      have h2 : parse_infostring (BACKSLASH :: (v ++ encodePairs rest)) =
          some (v, encodePairs rest) :=
        parse_infostring_encoded v (encodePairs rest) hv (encodePairs_head rest)
      have hfuel' : (encodePairs rest).length ≤ fuel := by
        rw [hlen] at hfuel
        omega
      simp only [parsePairsGo, h1, h2]
      rw [ih fuel hfuel' (fun q hq => hwf q (by simp [hq]))]

theorem imapInsert_fst (es : List (List Nat × List Nat)) (k v : List Nat) :
    (imapInsert es k v).1 = (InfoMap.mk es).lookup k := by
  induction es with
  | nil => simp [imapInsert, InfoMap.lookup]
  | cons e rest ih =>
    obtain ⟨k', v'⟩ := e
    by_cases hk : k' = k
    · subst hk
      simp [imapInsert, InfoMap.lookup]
    · simp only [imapInsert, if_neg hk, InfoMap.lookup, List.find?_cons]
      rw [show (decide ((k', v').1 = k)) = false by simp [hk]]
      exact ih

theorem imapInsert_lookup (es : List (List Nat × List Nat)) (k v k' : List Nat) :
    (InfoMap.mk (imapInsert es k v).2).lookup k' =
      if k = k' then some v else (InfoMap.mk es).lookup k' := by
  induction es with
  | nil =>
    by_cases h : k = k' <;> simp [imapInsert, InfoMap.lookup, h]
  | cons e rest ih =>
    obtain ⟨k'', v''⟩ := e
    by_cases hk : k'' = k
    · subst hk
      by_cases h : k'' = k'
      · subst h
        simp [imapInsert, InfoMap.lookup]
      · simp [imapInsert, InfoMap.lookup, List.find?_cons, h]
    · simp only [imapInsert, if_neg hk]
      by_cases h : k'' = k'
      · subst h
        have hkk : ¬ k = k'' := fun hh => hk hh.symm
        simp [InfoMap.lookup, List.find?_cons, if_neg hkk]
      · simp only [InfoMap.lookup, List.find?_cons] at ih ⊢
        rw [show (decide ((k'', v'').1 = k')) = false by simp [h]]
        simpa [InfoMap.lookup] using ih

theorem lastLookup_cons (k' v' k : List Nat) (rest : List (List Nat × List Nat)) :
    lastLookup ((k', v') :: rest) k =
      (lastLookup rest k).or (if k' = k then some v' else none) := by
  simp only [lastLookup, List.reverse_cons, List.find?_append]
  cases hfind : (rest.reverse.find? (fun e => e.1 = k)) with
  | none =>
    by_cases h : k' = k <;> simp [Option.or, List.find?, h]
  | some e => simp [Option.or]

theorem insertAll_lookup (L : Nat) (ps : List (List Nat × List Nat)) :
    ∀ (m0 m : InfoMap), insertAll L m0 ps = .ok m →
      ∀ k, m.lookup k = (lastLookup ps k).or (m0.lookup k) := by
  induction ps with
  | nil =>
    intro m0 m hok k
    simp only [insertAll, Except.ok.injEq] at hok
    subst hok
    simp [lastLookup, Option.or]
  | cons p rest ih =>
    intro m0 m hok k
    obtain ⟨kp, vp⟩ := p
    simp only [insertAll] at hok
    cases htry : (m0.try_insert L kp vp).1 with
    | error e => rw [htry] at hok; exact absurd hok (by simp)
    | ok old =>
      rw [htry] at hok
      have hm1 : (m0.try_insert L kp vp).2 = InfoMap.mk (imapInsert m0.entries kp vp).2 := by
        simp only [InfoMap.try_insert] at htry ⊢
        by_cases hgt : m0.encoded_size kp + encodedSize kp + encodedSize vp > L
        · rw [if_pos hgt] at htry; exact absurd htry.symm (by simp)
        · rw [if_neg hgt]
      have := ih (m0.try_insert L kp vp).2 m hok k
      rw [hm1] at this
      rw [this, imapInsert_lookup, lastLookup_cons]
      by_cases hk : kp = k
      · subst hk
        cases hlast : lastLookup rest kp <;> simp [Option.or]
      · rw [if_neg hk, if_neg hk]
        cases hlast : lastLookup rest k <;> simp [Option.or]

theorem foldl_size_eq_sum (es : List (List Nat × List Nat)) :
    ∀ a, es.foldl (fun acc e => acc + encodedSize e.1 + encodedSize e.2) a =
      a + (es.map (fun e => encodedSize e.1 + encodedSize e.2)).sum := by
  induction es with
  | nil => simp
  | cons e rest ih =>
    intro a
    simp only [List.foldl_cons, List.map_cons, List.sum_cons, ih]
    ring

theorem filter_ne_of_not_mem (es : List (List Nat × List Nat)) (key : List Nat)
    (h : key ∉ es.map Prod.fst) :
    es.filter (fun e => e.1 ≠ key) = es := by
  rw [List.filter_eq_self]
  intro q hq
  simp only [ne_eq, decide_eq_true_eq, decide_not, Bool.not_eq_true']
  rw [decide_eq_false_iff_not]
  intro hqk
  exact h (hqk ▸ List.mem_map_of_mem Prod.fst hq)

theorem spec_size_aux (key value : List Nat) :
    ∀ es : List (List Nat × List Nat), (es.map Prod.fst).Nodup →
      ((es.filter (fun e => e.1 ≠ key)).map
          (fun e => encodedSize e.1 + encodedSize e.2)).sum +
        encodedSize key + encodedSize value =
      (es.map (fun e => if e.1 = key then encodedSize key + encodedSize value
          else encodedSize e.1 + encodedSize e.2)).sum +
        (if es.any (fun e => e.1 = key) then 0
         else encodedSize key + encodedSize value) := by
  intro es
  induction es with
  | nil => intro _; simp
  | cons e rest ih =>
    intro hnd
    rw [List.map_cons, List.nodup_cons] at hnd
    have hnd' : (rest.map Prod.fst).Nodup := hnd.2
    by_cases he : e.1 = key
    · subst he
      have hkey : e.1 ∉ rest.map Prod.fst := hnd.1
      have hfilter : rest.filter (fun q => q.1 ≠ e.1) = rest :=
        filter_ne_of_not_mem rest e.1 hkey
      rw [List.filter_cons_of_neg (by simp), hfilter, List.map_cons, if_pos rfl,
        List.sum_cons, List.any_cons]
      have hmapcongr : rest.map (fun q =>
          if q.1 = e.1 then encodedSize e.1 + encodedSize value
          else encodedSize q.1 + encodedSize q.2) =
          rest.map (fun q => encodedSize q.1 + encodedSize q.2) := by
        apply List.map_congr_left
        intro q hq
        have hne : ¬ q.1 = e.1 := by
          intro hh
          exact hkey (hh ▸ List.mem_map_of_mem Prod.fst hq)
        simp [hne]
      rw [hmapcongr]
      rw [if_pos (by simp)]
      omega
    · have ih' := ih hnd'
      rw [List.filter_cons_of_pos (by simp [he]), List.map_cons, List.sum_cons,
        List.map_cons, if_neg he, List.sum_cons, List.any_cons]
      rw [show (decide (e.1 = key)) = false by simp [he]]
      rw [Bool.false_or]
      omega

theorem encoded_size_eq_spec (m : InfoMap) (key value : List Nat)
    (hnd : (m.entries.map Prod.fst).Nodup) :
    m.encoded_size key + encodedSize key + encodedSize value =
      prospectiveTotalSpec m key value := by
  obtain ⟨es⟩ := m
  simp only [InfoMap.encoded_size, prospectiveTotalSpec]
  rw [foldl_size_eq_sum _ 0, Nat.zero_add]
  exact spec_size_aux key value es hnd

/-! ### Claims -/

/-- C2: `parse_packet` is claimed to always return a `Result` and never
panic on inputs of at most 1400 bytes.  The code violates this: for a
fragmented header whose declared fragment length differs from the number of
remaining bytes, the `assert_eq!` in `parse_packet` panics (the source even
carries a `TODO: this should be an error, not a panic`).  The 10-byte input
below (fragment bit set, qport 1, fragment start 0, declared length 1, no
payload) reaches that panic, modelled as `none`. -/
theorem c2_parse_packet_panics_on_fragment_length_mismatch :
    parse_packet [0, 0, 0, 128, 1, 0, 0, 0, 1, 0] = none := by decide

/-- C3: Huffman `decode` is claimed to fail with a truncation error value
when the bit stream is exhausted before `length` bytes are produced.  The
code instead calls `bits.next().unwrap()`, which panics on the exhausted
stream (modelled as `none`): decoding one byte from the empty stream hits
the unwrap on the very first NYT escape bit. -/
theorem c3_decode_panics_on_truncated_stream :
    Huffman.decode Huffman.adaptive [] 1 = none := by decide

/-- C6: `try_insert` fails with a `LimitError` carrying the rejected key and
value and leaves the map unchanged exactly when the prospective total
encoded size — each entry counting `(1+len k)+(1+len v)`, the candidate's
size replacing the old entry's size when the key exists — exceeds `L`;
otherwise the insertion happens (the key now maps to the new value and all
other keys are untouched) and the previous value for the key is returned.
Stated for maps with pairwise distinct keys, the only maps the `IndexMap`
based code can hold. -/
theorem c6_try_insert_limit (L : Nat) (m : InfoMap) (key value : List Nat)
    (hnd : (m.entries.map Prod.fst).Nodup) :
    (prospectiveTotalSpec m key value > L →
      m.try_insert L key value = (.error (key, value), m)) ∧
    (prospectiveTotalSpec m key value ≤ L →
      (m.try_insert L key value).1 = .ok (m.lookup key) ∧
      (m.try_insert L key value).2.lookup key = some value ∧
      ∀ k', k' ≠ key → (m.try_insert L key value).2.lookup k' = m.lookup k') := by
  have hsize := encoded_size_eq_spec m key value hnd
  constructor
  · intro hgt
    simp only [InfoMap.try_insert]
    rw [if_pos (by omega)]
  · intro hle
    have hcond : ¬ m.encoded_size key + encodedSize key + encodedSize value > L := by
      omega
    simp only [InfoMap.try_insert]
    rw [if_neg hcond]
    refine ⟨?_, ?_, ?_⟩
    · rw [imapInsert_fst]
    · rw [show (⟨(imapInsert m.entries key value).2⟩ : InfoMap) =
        InfoMap.mk (imapInsert m.entries key value).2 from rfl, imapInsert_lookup,
        if_pos rfl]
    · intro k' hk'
      rw [show (⟨(imapInsert m.entries key value).2⟩ : InfoMap) =
        InfoMap.mk (imapInsert m.entries key value).2 from rfl, imapInsert_lookup,
        if_neg (fun hh => hk' hh.symm)]

/-- Witness for C6 at a concrete instance: the map holding `k0 ↦ vA` under
limit 13 accepts `k1 ↦ vB` and returns no previous value. -/
theorem c6_try_insert_limit_witness :
    (((InfoMap.mk [([107, 48], [118, 65])]).entries.map Prod.fst).Nodup ∧
      prospectiveTotalSpec (InfoMap.mk [([107, 48], [118, 65])]) [107, 49] [118, 66] ≤ 13) ∧
    ((InfoMap.mk [([107, 48], [118, 65])]).try_insert 13 [107, 49] [118, 66]).1 =
      .ok none := by
  refine ⟨⟨by decide, by decide⟩, ?_⟩
  have h := ((c6_try_insert_limit 13 (InfoMap.mk [([107, 48], [118, 65])])
    [107, 49] [118, 66] (by decide)).2 (by decide)).1
  rw [h]
  rfl

/-- C7 counterexample: the claim says an input with two `\KEY\VALUE` groups
sharing the key yields a `ParseError`; on the input `\k\v\k\w` the parser
instead succeeds with the single entry `k ↦ w` (the `try_insert` the claim
appeals to overwrites existing keys rather than rejecting them). -/
theorem c7_parse_duplicate_key_succeeds :
    InfoMap.parse INFO_LIMIT (strBytes "\\k\\v\\k\\w") =
      .ok (InfoMap.mk [(strBytes "k", strBytes "w")]) := by decide

/-- C7 amended: for every well-formed input made of `\KEY\VALUE` groups that
stays within the size budget (every `try_insert` of the accumulated fold
succeeds) and contains two groups with the same key, `InfoMap::parse`
returns a map — not a `ParseError` — in which each key holds the value of
its last group. -/
theorem c7_parse_duplicate_keys_overwrite (L : Nat)
    (ps : List (List Nat × List Nat)) (m : InfoMap)
    (hwf : ∀ p ∈ ps, ValidInfoStr p.1 ∧ ValidInfoStr p.2)
    (hdup : ¬ (ps.map Prod.fst).Nodup)
    (hins : insertAll L InfoMap.empty ps = .ok m) :
    InfoMap.parse L (encodePairs ps) = .ok m ∧
      ∀ k, m.lookup k = lastLookup ps k := by
  constructor
  · unfold InfoMap.parse parsePairs
    rw [parsePairsGo_encoded ps (encodePairs ps).length le_rfl hwf]
    simp only [hins]
    rfl
  · intro k
    have h := insertAll_lookup L ps InfoMap.empty m hins k
    simpa [InfoMap.empty, InfoMap.lookup, Option.or_none] using h

/-- Witness for C7 amended at the input `\k\v\k\w`: both groups share the
key `k`, the inserts stay within the 1024-byte budget, and parsing returns
the one-entry map `k ↦ w`. -/
theorem c7_parse_duplicate_keys_overwrite_witness :
    ((∀ p ∈ [([107], [118]), ([107], [119])],
        ValidInfoStr (Prod.fst p) ∧ ValidInfoStr (Prod.snd p)) ∧
      ¬ (([([107], [118]), ([107], [119])].map Prod.fst)).Nodup ∧
      insertAll 1024 InfoMap.empty [([107], [118]), ([107], [119])] =
        .ok (InfoMap.mk [([107], [119])])) ∧
    InfoMap.parse 1024 (encodePairs [([107], [118]), ([107], [119])]) =
      .ok (InfoMap.mk [([107], [119])]) := by
  refine ⟨⟨by decide, by decide, by decide⟩, ?_⟩
  exact (c7_parse_duplicate_keys_overwrite 1024 [([107], [118]), ([107], [119])]
    (InfoMap.mk [([107], [119])]) (by decide) (by decide) (by decide)).1

/-- C8: command matching is claimed case-insensitive, but
`ConnectionlessCommand::parse` compares the token byte for byte: the
all-caps casing variant `GETSTATUS` of `getstatus` is rejected with a
`ParseCommandError` instead of yielding `GetStatus`. -/
theorem c8_command_parse_rejects_casing_variant :
    casingVariant GETSTATUS_COMMAND (strBytes "GETSTATUS") ∧
      ConnectionlessCommand.parse (strBytes "GETSTATUS") = .error .mk := by
  constructor
  · decide
  · decide

/-- C9: encoding the three bytes `aab` with a fresh adaptive coder yields a
bit sequence that packs, least significant bit first in each byte, into
exactly the bytes `86 19 01`. -/
theorem c9_encode_aab :
    (Huffman.encode Huffman.adaptive (strBytes "aab")).map
      (fun p => packBits p.2) = some [0x86, 0x19, 0x01] := by decide

theorem decodeGo_exit (fuel : Nat) (h : Huffman) (bits : List Bool)
    (ni len w : Nat) (out : List Nat) (hwl : ¬ w < len) :
    Huffman.decodeGo fuel h bits ni len w out = some (h, out) := by
  cases fuel <;> simp [Huffman.decodeGo, hwl]

/-- C10: for a fresh adaptive coder and every input bit stream, decoding
with requested length 0 returns immediately: no panic, no output bytes, and
the coder (tree, symbol table and cursors) is exactly the fresh state. -/
theorem c10_decode_zero_length (bits : List Bool) :
    Huffman.decode Huffman.adaptive bits 0 = some (Huffman.adaptive, []) := by
  have h := decodeGo_exit (0 + bits.length) Huffman.adaptive bits Huffman.ROOT 0 0 []
    (by omega)
  simpa [Huffman.decode] using h


/-! ### Invariants of the adaptive Huffman coder: proofs -/

theorem WF_def (h : Huffman) :
    WF h ↔ WFcore h ∧ sumsExcept h none ∧ orderAll h := by
  constructor
  · rintro ⟨hc, hs, _, horder | hB⟩
    · exact ⟨hc, hs, horder.1⟩
    · obtain ⟨c, hc', _⟩ := hB
      exact absurd hc' (by simp)
  · rintro ⟨hc, hs, ho⟩
    exact ⟨hc, hs, by simp, Or.inl ⟨ho, by simp⟩⟩

/-! ### State-update utilities -/

theorem MAX_NODES_eq : MAX_NODES = 511 := rfl

theorem MAX_SYMBOLS_eq : MAX_SYMBOLS = 256 := rfl

theorem ROOT_eq : Huffman.ROOT = 0 := rfl

theorem nodeRef_set_self (h : Huffman) (i : Nat) (v : Option Node)
    (hlt : i < h.tree.length) :
    Huffman.nodeRef { h with tree := h.tree.set i v } i = v := by
  show ((h.tree.set i v).get? i).bind id = v
  rw [List.get?_eq_getElem?, List.getElem?_set_eq (by simpa using hlt)]
  rfl

theorem nodeRef_set_other (h : Huffman) (i j : Nat) (v : Option Node)
    (hne : i ≠ j) :
    Huffman.nodeRef { h with tree := h.tree.set i v } j = h.nodeRef j := by
  show ((h.tree.set i v).get? j).bind id = (h.tree.get? j).bind id
  rw [List.get?_set_ne _ _ hne]

theorem treeSet_eq_some {h : Huffman} {i : Nat} {v : Option Node} {h' : Huffman} :
    h.treeSet i v = some h' ↔
      i < h.tree.length ∧ h' = { h with tree := h.tree.set i v } := by
  unfold Huffman.treeSet
  split
  · simp_all [eq_comm]
  · simp_all

theorem modifyNode_eq_some {h : Huffman} {i : Nat} {f : Node → Option Node}
    {h' : Huffman} :
    h.modifyNode i f = some h' ↔
      ∃ n n', h.nodeRef i = some n ∧ f n = some n' ∧
        h' = { h with tree := h.tree.set i (some n') } := by
  unfold Huffman.modifyNode
  simp only [bind, Option.bind_eq_some, treeSet_eq_some]
  constructor
  · rintro ⟨n, hn, n', hn', hlt, rfl⟩
    exact ⟨n, n', hn, hn', rfl⟩
  · rintro ⟨n, n', hn, hn', rfl⟩
    refine ⟨n, hn, n', hn', ?_, rfl⟩
    have hne : h.tree.get? i ≠ none := by
      intro hnone
      rw [Huffman.nodeRef, hnone] at hn
      exact absurd hn (by simp)
    rw [Ne, List.get?_eq_none] at hne
    omega

theorem symbolIndexSet_eq_some {h : Huffman} {s : Nat} {v : Option Nat}
    {h' : Huffman} :
    h.symbolIndexSet s v = some h' ↔
      s < h.symbol_index.length ∧
        h' = { h with symbol_index := h.symbol_index.set s v } := by
  unfold Huffman.symbolIndexSet
  split
  · simp_all [eq_comm]
  · simp_all

theorem nodeRef_some_lt_length {h : Huffman} {i : Nat} {n : Node}
    (hn : h.nodeRef i = some n) : i < h.tree.length := by
  by_contra hge
  rw [Huffman.nodeRef, List.get?_eq_none.mpr (by omega)] at hn
  exact absurd hn (by simp)

theorem nodeRef_sym_irrel (h : Huffman) (sym : List (Option Nat)) (i : Nat) :
    Huffman.nodeRef { h with symbol_index := sym } i = h.nodeRef i := rfl

/-! ### The initial state -/

theorem nodeRef_adaptive (i : Nat) :
    Huffman.nodeRef Huffman.adaptive i =
      if i = 0 then some (.notYetTransmitted none) else none := by
  show (((List.replicate MAX_NODES (none : Option Node)).set 0
      (some (Node.notYetTransmitted none))).get? i).bind id = _
  by_cases hi : i = 0
  · subst hi
    rw [List.get?_eq_getElem?, List.getElem?_set_eq (by simp [MAX_NODES_eq])]
    rfl
  · rw [List.get?_set_ne _ _ (Ne.symm hi), if_neg hi,
      List.get?_eq_getElem?, List.getElem?_replicate]
    split <;> rfl

theorem adaptive_next : Huffman.adaptive.next = 1 := rfl

theorem adaptive_nyt : Huffman.adaptive.nyt = 0 := rfl

theorem adaptive_tree_len : Huffman.adaptive.tree.length = MAX_NODES := by
  show ((List.replicate MAX_NODES (none : Option Node)).set 0 _).length = _
  rw [List.length_set, List.length_replicate]

theorem adaptive_sym_len : Huffman.adaptive.symbol_index.length = MAX_SYMBOLS := by
  show (List.replicate MAX_SYMBOLS (none : Option Nat)).length = _
  rw [List.length_replicate]

theorem WF_adaptive : WF Huffman.adaptive := by
  rw [WF_def]
  refine ⟨⟨adaptive_tree_len, adaptive_sym_len, ?_, rfl, ?_, ?_, ?_, ?_, ?_, ?_,
    ?_, ?_, ?_, ?_, ?_, ?_⟩, ?_, ?_⟩
  · rw [adaptive_next, MAX_NODES_eq]; omega
  · intro i hi
    rw [adaptive_next] at hi
    have h0 : i = 0 := by omega
    subst h0
    exact ⟨Node.notYetTransmitted none, by rw [nodeRef_adaptive]; rfl⟩
  · intro i hi
    rw [adaptive_next] at hi
    rw [nodeRef_adaptive, if_neg (by omega)]
  · exact ⟨none, by rw [adaptive_nyt, nodeRef_adaptive]; rfl⟩
  · intro i p hp
    rw [nodeRef_adaptive] at hp
    rw [adaptive_nyt]
    by_cases hi : i = 0
    · exact hi
    · rw [if_neg hi] at hp
      exact absurd hp (by simp)
  · intro nd hnd
    rw [nodeRef_adaptive] at hnd
    simp only [if_pos, Option.some_inj] at hnd
    subst hnd
    rfl
  · intro i nd hnd hne
    rw [nodeRef_adaptive, if_neg hne] at hnd
    exact absurd hnd (by simp)
  · intro i pp l r w hint
    rw [nodeRef_adaptive] at hint
    split at hint <;> simp_all
  · intro p hp
    rw [adaptive_nyt, nodeRef_adaptive] at hp
    simp at hp
  · intro i p w s hleaf
    rw [nodeRef_adaptive] at hleaf
    split at hleaf <;> simp_all
  · intro i pp l r w hint
    rw [nodeRef_adaptive] at hint
    split at hint <;> simp_all
  · intro s i hsym
    have hh : Huffman.adaptive.symbol_index.get? s =
        if s < MAX_SYMBOLS then some none else none := by
      show (List.replicate MAX_SYMBOLS (none : Option Nat)).get? s = _
      rw [List.get?_eq_getElem?, List.getElem?_replicate]
    rw [hh] at hsym
    split at hsym <;> simp_all
  · intro i p w s hleaf
    rw [nodeRef_adaptive] at hleaf
    split at hleaf <;> simp_all
  · intro i pp l r w hint
    rw [nodeRef_adaptive] at hint
    split at hint <;> simp_all
  · intro i j hij hj
    rw [adaptive_next] at hj
    omega


/-! ### Node helpers -/

theorem Node.weight_setParent (n : Node) (i : Nat) :
    (n.setParent i).weight = n.weight := by
  cases n <;> rfl

theorem Node.parent_setParent (n : Node) (i : Nat) :
    (n.setParent i).parent = some i := by
  cases n <;> rfl

theorem childOf_setParent (n : Node) (x i : Nat) :
    ChildOf (n.setParent x) i ↔ ChildOf n i := by
  cases n with
  | notYetTransmitted q => simp [Node.setParent, ChildOf]
  | leaf p w s => simp [Node.setParent, ChildOf]
  | internal p l r w =>
    simp only [Node.setParent, ChildOf]
    constructor
    · rintro ⟨pp', l', r', w', heq, hor⟩
      injection heq with e1 e2 e3 e4
      exact ⟨p, l, r, w, rfl, by rw [e2, e3]; exact hor⟩
    · rintro ⟨pp', l', r', w', heq, hor⟩
      injection heq with e1 e2 e3 e4
      exact ⟨some x, l, r, w, rfl, by rw [e2, e3]; exact hor⟩

theorem not_childOf_leaf (p w s i : Nat) : ¬ ChildOf (.leaf p w s) i := by
  rintro ⟨pp, l, r, ww, hh, -⟩
  exact absurd hh (by simp)

theorem not_childOf_nyt (q : Option Nat) (i : Nat) :
    ¬ ChildOf (.notYetTransmitted q) i := by
  rintro ⟨pp, l, r, ww, hh, -⟩
  exact absurd hh (by simp)

theorem nodeRef_get? {h : Huffman} {i : Nat} {n : Node}
    (hn : h.nodeRef i = some n) : h.tree.get? i = some (some n) := by
  unfold Huffman.nodeRef at hn
  cases hg : h.tree.get? i with
  | none => rw [hg] at hn; exact absurd hn (by simp)
  | some o =>
    rw [hg] at hn
    cases o with
    | none => exact absurd hn (by simp)
    | some m => simp_all

/-! ### The fixup blocks of `swap_nodes` -/

theorem fixup_leaf_spec (h : Huffman) (x p w s : Nat)
    (hs : s < h.symbol_index.length) {h' : Huffman}
    (hfix : h.symbolIndexSet s (some x) = some h') :
    FixShape h h' x (.leaf p w s) := by
  obtain ⟨-, rfl⟩ := symbolIndexSet_eq_some.mp hfix
  refine ⟨rfl, rfl, rfl, by simp, fun i _ => rfl, ?_, ?_, ?_⟩
  · intro i hc
    exact absurd hc (not_childOf_leaf _ _ _ _)
  · intro t ht
    show (h.symbol_index.set s (some x)).get? t = _
    rcases eq_or_ne s t with rfl | hne
    · exact absurd rfl (ht p w)
    · rw [List.get?_set_ne _ _ hne]
  · intro p' w' s' hh
    obtain ⟨rfl, rfl, rfl⟩ : p = p' ∧ w = w' ∧ s = s' := by
      injection hh with h1 h2 h3
      exact ⟨h1, h2, h3⟩
    show (h.symbol_index.set s (some x)).get? s = _
    rw [List.get?_eq_getElem?, List.getElem?_set_eq (by simpa using hs)]

theorem fixup_internal_spec (h : Huffman) (x : Nat) (pp : Option Nat)
    (l r w : Nat) (hlr : l ≠ r)
    {h' : Huffman}
    (hfix : (h.modifyNode l (fun n => some (n.setParent x))).bind
      (fun hh => hh.modifyNode r (fun n => some (n.setParent x))) = some h') :
    FixShape h h' x (.internal pp l r w) := by
  rw [Option.bind_eq_some] at hfix
  obtain ⟨h1, hmod1, hmod2⟩ := hfix
  obtain ⟨m, m', hm, hm', rfl⟩ := modifyNode_eq_some.mp hmod1
  obtain ⟨k, k', hk, hk', h'eq⟩ := modifyNode_eq_some.mp hmod2
  obtain rfl : m.setParent x = m' := by injection hm'
  obtain rfl : k.setParent x = k' := by injection hk'
  have hk0 : Huffman.nodeRef { h with tree := h.tree.set l (some (m.setParent x)) } r =
      some k := hk
  rw [nodeRef_set_other _ _ _ _ hlr] at hk0
  subst h'eq
  have hLlen : l < h.tree.length := nodeRef_some_lt_length hm
  have hRlen : r < h.tree.length := nodeRef_some_lt_length hk0
  have htree : ∀ i : Nat,
      Huffman.nodeRef
        { { h with tree := h.tree.set l (some (m.setParent x)) } with
          tree := ({ h with tree := h.tree.set l (some (m.setParent x)) } :
            Huffman).tree.set r (some (k.setParent x)) } i =
      (((h.tree.set l (some (m.setParent x))).set r
        (some (k.setParent x))).get? i).bind id := fun i => rfl
  refine ⟨rfl, rfl, by simp, rfl, ?_, ?_, fun s _ => rfl, ?_⟩
  · intro i hc
    have hil : i ≠ l := fun hh => hc ⟨pp, l, r, w, rfl, Or.inl hh⟩
    have hir : i ≠ r := fun hh => hc ⟨pp, l, r, w, rfl, Or.inr hh⟩
    rw [htree, List.get?_set_ne _ _ (Ne.symm hir), List.get?_set_ne _ _ (Ne.symm hil)]
    rfl
  · intro i hc
    obtain ⟨pp', l', r', w', heq, hor⟩ := hc
    obtain ⟨rfl, rfl⟩ : l = l' ∧ r = r' := by
      injection heq with e1 e2 e3 e4
      exact ⟨e2, e3⟩
    rcases hor with rfl | rfl
    · rw [htree, List.get?_set_ne _ _ (Ne.symm hlr), List.get?_eq_getElem?,
        List.getElem?_set_eq (by simpa using hLlen), hm]
      rfl
    · rw [htree, List.get?_eq_getElem?,
        List.getElem?_set_eq (by simp; omega), hk0]
      rfl
  · intro p' w' s' hh
    exact absurd hh (by simp)


theorem fixShape_setParent {h h' : Huffman} {x : Nat} {n : Node} {y : Nat}
    (hf : FixShape h h' x (n.setParent y)) : FixShape h h' x n := by
  refine ⟨hf.nyt_eq, hf.next_eq, hf.tlen, hf.slen, ?_, ?_, ?_, ?_⟩
  · intro i hc
    exact hf.at_other i (fun hc' => hc ((childOf_setParent n y i).mp hc'))
  · intro i hc
    exact hf.at_child i ((childOf_setParent n y i).mpr hc)
  · intro s hs
    refine hf.sym_other s ?_
    intro p w heq
    cases n with
    | notYetTransmitted q => exact absurd heq (by simp [Node.setParent])
    | leaf p0 w0 s0 =>
      simp only [Node.setParent] at heq
      injection heq with e1 e2 e3
      exact hs p0 w (by rw [e2, e3])
    | internal p0 l0 r0 w0 => exact absurd heq (by simp [Node.setParent])
  · intro p w s heq
    subst heq
    exact hf.sym_leaf y w s rfl

/-! ### Anatomy of `swap_nodes` -/

theorem swapShape_assemble {h t4 t5 h2 : Huffman} {a b pa pb : Nat}
    {na nb : Node}
    (hab : a ≠ b)
    (hca : ∀ i, ChildOf na i → i ≠ a ∧ i ≠ b)
    (hcb : ∀ i, ChildOf nb i → i ≠ a ∧ i ≠ b)
    (hdisj : ∀ i, ChildOf na i → ¬ ChildOf nb i)
    (hsymne : ∀ p w s p' w' s', na = .leaf p w s → nb = .leaf p' w' s' → s ≠ s')
    (ht4ref : ∀ i, t4.nodeRef i =
      if i = a then some (nb.setParent pa)
      else if i = b then some (na.setParent pb)
      else h.nodeRef i)
    (ht4nyt : t4.nyt = h.nyt) (ht4next : t4.next = h.next)
    (ht4tlen : t4.tree.length = h.tree.length)
    (ht4slen : t4.symbol_index.length = h.symbol_index.length)
    (ht4sym : ∀ s, t4.symbol_index.get? s = h.symbol_index.get? s)
    (hFA : FixShape t4 t5 a nb) (hFB : FixShape t5 h2 b na) :
    SwapShape h h2 a b pa pb na nb := by
  have ht4a : t4.nodeRef a = some (nb.setParent pa) := by
    rw [ht4ref]; simp
  have ht4b : t4.nodeRef b = some (na.setParent pb) := by
    rw [ht4ref, if_neg (Ne.symm hab)]; simp
  refine ⟨?_, ?_, ?_, ?_, ?_, ?_, ?_, ?_, ?_, ?_, ?_, ?_⟩
  · rw [hFB.nyt_eq, hFA.nyt_eq, ht4nyt]
  · rw [hFB.next_eq, hFA.next_eq, ht4next]
  · rw [hFB.tlen, hFA.tlen, ht4tlen]
  · rw [hFB.slen, hFA.slen, ht4slen]
  · rw [hFB.at_other a (fun hc => (hca a hc).1 rfl),
      hFA.at_other a (fun hc => (hcb a hc).1 rfl), ht4a]
  · rw [hFB.at_other b (fun hc => (hca b hc).2 rfl),
      hFA.at_other b (fun hc => (hcb b hc).2 rfl), ht4b]
  · intro i hia hib hcna hcnb
    rw [hFB.at_other i hcna, hFA.at_other i hcnb, ht4ref, if_neg hia, if_neg hib]
  · intro i hc
    have hi := hcb i hc
    rw [hFB.at_other i (fun hc' => hdisj i hc' hc), hFA.at_child i hc,
      ht4ref, if_neg hi.1, if_neg hi.2]
  · intro i hc
    have hi := hca i hc
    rw [hFB.at_child i hc, hFA.at_other i (hdisj i hc),
      ht4ref, if_neg hi.1, if_neg hi.2]
  · intro s hsna hsnb
    rw [hFB.sym_other s hsna, hFA.sym_other s hsnb, ht4sym]
  · intro p w s heq
    have hnas : ∀ p' w', na ≠ .leaf p' w' s := by
      intro p' w' heq'
      exact hsymne p' w' s p w s heq' heq rfl
    rw [hFB.sym_other s hnas, hFA.sym_leaf p w s heq]
  · intro p w s heq
    rw [hFB.sym_leaf p w s heq]

theorem swap_nodes_shape {h h2 : Huffman} {a b : Nat} {na nb : Node}
    (hna : h.nodeRef a = some na) (hnb : h.nodeRef b = some nb)
    (hab : a ≠ b)
    (hca : ∀ i, ChildOf na i → i ≠ a ∧ i ≠ b)
    (hcb : ∀ i, ChildOf nb i → i ≠ a ∧ i ≠ b)
    (hdisj : ∀ i, ChildOf na i → ¬ ChildOf nb i)
    (hlr_a : ∀ pp l r w, na = .internal pp l r w → l ≠ r)
    (hlr_b : ∀ pp l r w, nb = .internal pp l r w → l ≠ r)
    (hsym_a : ∀ p w s, na = .leaf p w s → s < h.symbol_index.length)
    (hsym_b : ∀ p w s, nb = .leaf p w s → s < h.symbol_index.length)
    (hsymne : ∀ p w s p' w' s', na = .leaf p w s → nb = .leaf p' w' s' → s ≠ s')
    (hsw : h.swap_nodes a b = some h2) :
    ∃ pa pb, na.parent = some pa ∧ nb.parent = some pb ∧
      SwapShape h h2 a b pa pb na nb := by
  have haLen : a < h.tree.length := nodeRef_some_lt_length hna
  have hbLen : b < h.tree.length := nodeRef_some_lt_length hnb
  unfold Huffman.swap_nodes at hsw
  simp only [bind, Option.bind_eq_some] at hsw
  obtain ⟨na', hna', pa, hpa, nb', hnb', pb, hpb, sa, hsa, sb, hsb,
    t1, ht1, t2, ht2, t3, ht3, t4, ht4, nA, hnA, hmatch⟩ := hsw
  have heqa : na' = na := by
    rw [hna] at hna'; exact (Option.some.inj hna').symm
  have heqb : nb' = nb := by
    rw [hnb] at hnb'; exact (Option.some.inj hnb').symm
  rw [heqa] at hpa
  rw [heqb] at hpb
  obtain rfl : sa = some na := by
    rw [nodeRef_get? hna] at hsa; exact (Option.some.inj hsa).symm
  obtain rfl : sb = some nb := by
    rw [nodeRef_get? hnb] at hsb; exact (Option.some.inj hsb).symm
  obtain ⟨-, rfl⟩ := treeSet_eq_some.mp ht1
  obtain ⟨-, rfl⟩ := treeSet_eq_some.mp ht2
  obtain ⟨x3, x3', hx3, hx3', rfl⟩ := modifyNode_eq_some.mp ht3
  obtain ⟨x4, x4', hx4, hx4', rfl⟩ := modifyNode_eq_some.mp ht4
  obtain rfl : nb = x3 := by
    have hh : Huffman.nodeRef
        { h with tree := (h.tree.set a (some nb)).set b (some na) } a = some nb := by
      show (((h.tree.set a (some nb)).set b (some na)).get? a).bind id = some nb
      rw [List.get?_set_ne _ _ (Ne.symm hab), List.get?_eq_getElem?,
        List.getElem?_set_eq (by simpa using haLen)]
      rfl
    rw [hx3] at hh; exact (Option.some.inj hh).symm
  obtain rfl : nb.setParent pa = x3' := Option.some.inj hx3'
  obtain rfl : na = x4 := by
    have hh : Huffman.nodeRef
        { h with tree := ((h.tree.set a (some nb)).set b
          (some na)).set a (some (nb.setParent pa)) } b = some na := by
      show ((((h.tree.set a (some nb)).set b (some na)).set a
          (some (nb.setParent pa))).get? b).bind id = some na
      rw [List.get?_set_ne _ _ hab, List.get?_eq_getElem?,
        List.getElem?_set_eq (by simpa using hbLen)]
      rfl
    rw [hx4] at hh; exact (Option.some.inj hh).symm
  obtain rfl : na.setParent pb = x4' := Option.some.inj hx4'
  set t4 : Huffman :=
    { h with tree := (((h.tree.set a (some nb)).set b (some na)).set a
        (some (nb.setParent pa))).set b (some (na.setParent pb)) } with ht4def
  have ht4ref : ∀ i, t4.nodeRef i =
      if i = a then some (nb.setParent pa)
      else if i = b then some (na.setParent pb)
      else h.nodeRef i := by
    intro i
    show ((((((h.tree.set a (some nb)).set b (some na)).set a
        (some (nb.setParent pa))).set b (some (na.setParent pb))).get? i)).bind id = _
    rcases eq_or_ne i b with rfl | hib
    · rw [List.get?_eq_getElem?, List.getElem?_set_eq (by simpa using hbLen),
        if_neg (Ne.symm hab), if_pos rfl]
      rfl
    · rw [List.get?_set_ne _ _ (Ne.symm hib)]
      rcases eq_or_ne i a with rfl | hia
      · rw [List.get?_eq_getElem?, List.getElem?_set_eq (by simpa using haLen),
          if_pos rfl]
        rfl
      · rw [List.get?_set_ne _ _ (Ne.symm hia), List.get?_set_ne _ _ (Ne.symm hib),
          List.get?_set_ne _ _ (Ne.symm hia), if_neg hia, if_neg hib]
        rfl
  have ht4a : t4.nodeRef a = some (nb.setParent pa) := by
    rw [ht4ref]; simp
  have ht4tlen : t4.tree.length = h.tree.length := by
    show ((((h.tree.set a _).set b _).set a _).set b _).length = _
    simp
  obtain rfl : nb.setParent pa = nA := by rw [ht4a] at hnA; injection hnA
  refine ⟨pa, pb, hpa, hpb, ?_⟩
  have hassemble : ∀ t5 : Huffman, FixShape t4 t5 a nb →
      ((t5.nodeRef b).bind fun n =>
        match n with
        | Node.notYetTransmitted _ => none
        | Node.leaf _ _ sym => t5.symbolIndexSet sym (some b)
        | Node.internal _ l r _ =>
          (t5.modifyNode l fun n => some (n.setParent b)).bind fun hh =>
            hh.modifyNode r fun n => some (n.setParent b)) = some h2 →
      SwapShape h h2 a b pa pb na nb := by
    intro t5 hFA hjp
    have ht5b : t5.nodeRef b = some (na.setParent pb) := by
      rw [hFA.at_other b (fun hc => (hcb b hc).2 rfl), ht4ref,
        if_neg (Ne.symm hab), if_pos rfl]
    rw [Option.bind_eq_some] at hjp
    obtain ⟨nB, hnB, harmB⟩ := hjp
    obtain rfl : na.setParent pb = nB := by rw [ht5b] at hnB; injection hnB
    have hFB : FixShape t5 h2 b na := by
      refine fixShape_setParent (n := na) (y := pb) ?_
      cases hcaseA : na with
      | notYetTransmitted q =>
        rw [hcaseA] at harmB
        simp [Node.setParent] at harmB
      | leaf p0 w0 s0 =>
        rw [hcaseA] at harmB
        simp only [Node.setParent] at harmB ⊢
        exact fixup_leaf_spec t5 b pb w0 s0
          (by rw [hFA.slen, show t4.symbol_index.length = h.symbol_index.length from rfl]
              exact hsym_a p0 w0 s0 hcaseA) harmB
      | internal pp0 l0 r0 w0 =>
        rw [hcaseA] at harmB
        simp only [Node.setParent] at harmB ⊢
        exact fixup_internal_spec t5 b (some pb) l0 r0 w0
          (hlr_a pp0 l0 r0 w0 hcaseA) harmB
    exact swapShape_assemble hab hca hcb hdisj hsymne ht4ref rfl rfl ht4tlen rfl
      (fun s => rfl) hFA hFB
  cases hcase : nb with
  | notYetTransmitted q =>
    rw [hcase] at hmatch
    simp [Node.setParent] at hmatch
  | leaf p0 w0 s0 =>
    rw [hcase] at hmatch
    simp only [Node.setParent] at hmatch
    rw [Option.bind_eq_some] at hmatch
    obtain ⟨t5, harm, hjp⟩ := hmatch
    have hFA : FixShape t4 t5 a nb := by
      rw [hcase]
      refine fixShape_setParent (n := Node.leaf p0 w0 s0) (y := pa) ?_
      simp only [Node.setParent]
      exact fixup_leaf_spec t4 a pa w0 s0
        (by show s0 < h.symbol_index.length
            exact hsym_b p0 w0 s0 hcase) harm
    rw [← hcase]
    exact hassemble t5 hFA hjp
  | internal pp0 l0 r0 w0 =>
    rw [hcase] at hmatch
    simp only [Node.setParent] at hmatch
    rw [Option.bind_eq_some] at hmatch
    obtain ⟨u, hmodl, hrest⟩ := hmatch
    rw [Option.bind_eq_some] at hrest
    obtain ⟨t5, hmodr, hjp⟩ := hrest
    have hmodl2 : (t4.modifyNode l0 fun n => some (n.setParent a)) = some u := hmodl
    have hfixterm : (t4.modifyNode l0 fun n => some (n.setParent a)).bind
        (fun hh => hh.modifyNode r0 fun n => some (n.setParent a)) = some t5 := by
      rw [hmodl2]
      exact hmodr
    have hFA : FixShape t4 t5 a nb := by
      rw [hcase]
      refine fixShape_setParent (n := Node.internal pp0 l0 r0 w0) (y := pa) ?_
      simp only [Node.setParent]
      exact fixup_internal_spec t4 a (some pa) l0 r0 w0
        (hlr_b pp0 l0 r0 w0 hcase) hfixterm
    rw [← hcase]
    exact hassemble t5 hFA hjp

/-! ### Weights -/

theorem wAt_eq_weight {h : Huffman} {i : Nat} {n : Node}
    (hn : h.nodeRef i = some n) : wAt h i = n.weight := by
  unfold wAt
  rw [hn]
  rfl

theorem wAt_pos {h : Huffman} (hc : WFcore h) {i : Nat} {n : Node}
    (hn : h.nodeRef i = some n) (hnn : ∀ q, n ≠ .notYetTransmitted q) :
    1 ≤ wAt h i := by
  rw [wAt_eq_weight hn]
  cases n with
  | notYetTransmitted q => exact absurd rfl (hnn q)
  | leaf p w s => exact hc.leaf_pos i p w s hn
  | internal pp l r w => exact hc.int_pos i pp l r w hn

theorem zero_weight_nyt {h : Huffman} (hc : WFcore h) {j : Nat}
    (hj : j < h.next) (hw : wAt h j = 0) : j = h.nyt := by
  obtain ⟨nd, hnd⟩ := hc.pop_lt j hj
  rw [wAt_eq_weight hnd] at hw
  cases nd with
  | notYetTransmitted q => exact hc.nyt_unique j q hnd
  | leaf p w s =>
    have := hc.leaf_pos j p w s hnd
    simp only [Node.weight] at hw
    omega
  | internal pp l r w =>
    have := hc.int_pos j pp l r w hnd
    simp only [Node.weight] at hw
    omega

theorem wAt_nyt_zero {h : Huffman} (hc : WFcore h) : wAt h h.nyt = 0 := by
  obtain ⟨q, hq⟩ := hc.nyt_is
  rw [wAt_eq_weight hq]
  rfl

/-! ### The block-leader scan -/

theorem blockLeaderGo_spec (h : Huffman) (w : Nat) :
    ∀ x res, h.blockLeaderGo w x = some res →
      (res = x + 1 ∧ wAt h x ≠ w) ∨
      (res ≤ x ∧ (∀ j, res ≤ j → j ≤ x → wAt h j = w) ∧
        (res = 0 ∨ wAt h (res - 1) ≠ w)) := by
  intro x
  induction x with
  | zero =>
    intro res hres
    simp only [Huffman.blockLeaderGo, bind, Option.bind_eq_some] at hres
    obtain ⟨n, hn, hif⟩ := hres
    by_cases hw0 : n.weight = w
    · rw [if_pos hw0, Option.some_inj] at hif
      subst hif
      exact Or.inr ⟨Nat.le_refl 0, fun j h1 h2 => by
        obtain rfl : j = 0 := Nat.le_antisymm h2 (Nat.zero_le j)
        rw [wAt_eq_weight hn, hw0], Or.inl rfl⟩
    · rw [if_neg hw0, Option.some_inj] at hif
      subst hif
      exact Or.inl ⟨rfl, by rw [wAt_eq_weight hn]; exact hw0⟩
  | succ i ih =>
    intro res hres
    simp only [Huffman.blockLeaderGo, bind, Option.bind_eq_some] at hres
    obtain ⟨n, hn, hif⟩ := hres
    by_cases hw0 : n.weight = w
    · rw [if_pos hw0] at hif
      rcases ih res hif with ⟨rfl, hne⟩ | ⟨hle, hall, hlast⟩
      · refine Or.inr ⟨Nat.le_refl _, fun j h1 h2 => ?_, Or.inr ?_⟩
        · obtain rfl : j = i + 1 := Nat.le_antisymm h2 h1
          rw [wAt_eq_weight hn, hw0]
        · simpa using hne
      · refine Or.inr ⟨Nat.le_trans hle (Nat.le_succ i), fun j h1 h2 => ?_, hlast⟩
        rcases Nat.lt_or_ge j (i + 1) with hj | hj
        · exact hall j h1 (by omega)
        · obtain rfl : j = i + 1 := by omega
          rw [wAt_eq_weight hn, hw0]
    · rw [if_neg hw0, Option.some_inj] at hif
      subst hif
      exact Or.inl ⟨rfl, by rw [wAt_eq_weight hn]; exact hw0⟩

theorem block_leader_spec {h : Huffman} {c ld : Nat}
    (hbl : h.block_leader c = some ld) (ho : orderAll h) (hcn : c < h.next) :
    ld ≤ c ∧ wAt h ld = wAt h c ∧ ∀ y, y < ld → wAt h c < wAt h y := by
  unfold Huffman.block_leader at hbl
  simp only [bind, Option.bind_eq_some] at hbl
  obtain ⟨n, hn, hgo⟩ := hbl
  have hwc : wAt h c = n.weight := wAt_eq_weight hn
  rcases blockLeaderGo_spec h n.weight c ld hgo with ⟨rfl, hne⟩ | ⟨hle, hall, hlast⟩
  · exact absurd hwc hne
  · refine ⟨hle, by rw [hall ld (Nat.le_refl ld) hle, hwc], ?_⟩
    intro y hy
    rcases hlast with rfl | hlw
    · omega
    · have hl1 : ld - 1 < h.next := by omega
      have h1 : wAt h c ≤ wAt h (ld - 1) := by
        rcases Nat.lt_or_ge (ld - 1) c with hlt | hge
        · exact ho (ld - 1) c hlt hcn
        · obtain rfl : ld - 1 = c := by omega
          exact Nat.le_refl _
      have h2 : wAt h c < wAt h (ld - 1) := by
        rcases Nat.lt_or_eq_of_le h1 with hlt | heq
        · exact hlt
        · rw [hwc] at heq
          exact absurd heq.symm hlw
      rcases Nat.lt_or_ge y (ld - 1) with hy2 | hy2
      · exact Nat.lt_of_lt_of_le h2 (ho y (ld - 1) hy2 (by omega))
      · obtain rfl : y = ld - 1 := by omega
        exact h2

theorem block_leader_self {h : Huffman} {c ld : Nat}
    (hbl : h.block_leader c = some ld)
    (hstrict : ∀ y, y < c → wAt h c < wAt h y) : ld = c := by
  unfold Huffman.block_leader at hbl
  simp only [bind, Option.bind_eq_some] at hbl
  obtain ⟨n, hn, hgo⟩ := hbl
  have hwc : wAt h c = n.weight := wAt_eq_weight hn
  rcases blockLeaderGo_spec h n.weight c ld hgo with ⟨rfl, hne⟩ | ⟨hle, hall, hlast⟩
  · exact absurd hwc hne
  · rcases Nat.lt_or_eq_of_le hle with hlt | heq
    · have h1 := hall ld (Nat.le_refl ld) hle
      have h2 := hstrict ld hlt
      rw [hwc, h1] at h2
      omega
    · exact heq

/-! ### The weight increment -/

theorem increaseWeight_parent {n n' : Node}
    (hn : Node.increaseWeight n = some n') : n'.parent = n.parent := by
  cases n with
  | notYetTransmitted q => exact absurd hn (by simp [Node.increaseWeight])
  | leaf p w s =>
    obtain rfl : Node.leaf p (w + 1) s = n' := by
      simpa [Node.increaseWeight] using hn
    rfl
  | internal pp l r w =>
    obtain rfl : Node.internal pp l r (w + 1) = n' := by
      simpa [Node.increaseWeight] using hn
    rfl

theorem increaseWeight_weight {n n' : Node}
    (hn : Node.increaseWeight n = some n') : n'.weight = n.weight + 1 := by
  cases n with
  | notYetTransmitted q => exact absurd hn (by simp [Node.increaseWeight])
  | leaf p w s =>
    obtain rfl : Node.leaf p (w + 1) s = n' := by
      simpa [Node.increaseWeight] using hn
    rfl
  | internal pp l r w =>
    obtain rfl : Node.internal pp l r (w + 1) = n' := by
      simpa [Node.increaseWeight] using hn
    rfl

theorem increaseWeight_not_nyt {n n' : Node}
    (hn : Node.increaseWeight n = some n') :
    (∀ q, n ≠ .notYetTransmitted q) ∧ (∀ q, n' ≠ .notYetTransmitted q) := by
  cases n with
  | notYetTransmitted q => exact absurd hn (by simp [Node.increaseWeight])
  | leaf p w s =>
    obtain rfl : Node.leaf p (w + 1) s = n' := by
      simpa [Node.increaseWeight] using hn
    exact ⟨by simp, by simp⟩
  | internal pp l r w =>
    obtain rfl : Node.internal pp l r (w + 1) = n' := by
      simpa [Node.increaseWeight] using hn
    exact ⟨by simp, by simp⟩

theorem increaseWeight_leaf {n n' : Node}
    (hn : Node.increaseWeight n = some n') :
    ∀ p w s, n = .leaf p w s → n' = .leaf p (w + 1) s := by
  rintro p w s rfl
  simpa [Node.increaseWeight] using hn.symm

theorem increaseWeight_internal {n n' : Node}
    (hn : Node.increaseWeight n = some n') :
    ∀ pp l r w, n = .internal pp l r w → n' = .internal pp l r (w + 1) := by
  rintro pp l r w rfl
  simpa [Node.increaseWeight] using hn.symm

theorem increaseWeight_leaf_inv {n n' : Node}
    (hn : Node.increaseWeight n = some n') :
    ∀ p w s, n' = .leaf p w s → ∃ w0, w = w0 + 1 ∧ n = .leaf p w0 s := by
  rintro p w s rfl
  cases n with
  | notYetTransmitted q => exact absurd hn (by simp [Node.increaseWeight])
  | leaf p0 w0 s0 =>
    have hh : Node.leaf p0 (w0 + 1) s0 = Node.leaf p w s := by
      simpa [Node.increaseWeight] using hn
    injection hh with e1 e2 e3
    exact ⟨w0, by omega, by rw [e1, e3]⟩
  | internal pp0 l0 r0 w0 =>
    have hh : Node.internal pp0 l0 r0 (w0 + 1) = Node.leaf p w s := by
      simpa [Node.increaseWeight] using hn
    exact absurd hh (by simp)

theorem increaseWeight_internal_inv {n n' : Node}
    (hn : Node.increaseWeight n = some n') :
    ∀ pp l r w, n' = .internal pp l r w → ∃ w0, w = w0 + 1 ∧
      n = .internal pp l r w0 := by
  rintro pp l r w rfl
  cases n with
  | notYetTransmitted q => exact absurd hn (by simp [Node.increaseWeight])
  | leaf p0 w0 s0 =>
    have hh : Node.leaf p0 (w0 + 1) s0 = Node.internal pp l r w := by
      simpa [Node.increaseWeight] using hn
    exact absurd hh (by simp)
  | internal pp0 l0 r0 w0 =>
    have hh : Node.internal pp0 l0 r0 (w0 + 1) = Node.internal pp l r w := by
      simpa [Node.increaseWeight] using hn
    injection hh with e1 e2 e3 e4
    exact ⟨w0, by omega, by rw [e1, e2, e3]⟩

theorem increment_shape {h h' : Huffman} {c : Nat}
    (hmod : h.modifyNode c Node.increaseWeight = some h') :
    ∃ n n', h.nodeRef c = some n ∧ Node.increaseWeight n = some n' ∧
      h'.nyt = h.nyt ∧ h'.next = h.next ∧
      h'.tree.length = h.tree.length ∧
      h'.symbol_index.length = h.symbol_index.length ∧
      (∀ s, h'.symbol_index.get? s = h.symbol_index.get? s) ∧
      (∀ i, h'.nodeRef i = if i = c then some n' else h.nodeRef i) := by
  obtain ⟨n, n', hn, hn', rfl⟩ := modifyNode_eq_some.mp hmod
  refine ⟨n, n', hn, hn', rfl, rfl, by simp, rfl, fun s => rfl, ?_⟩
  intro i
  rcases eq_or_ne i c with rfl | hne
  · rw [if_pos rfl, nodeRef_set_self _ _ _ (nodeRef_some_lt_length hn)]
  · rw [if_neg hne, nodeRef_set_other _ _ _ _ (Ne.symm hne)]

theorem increment_after {h h3 : Huffman} {c : Nat}
    (hc : WFcore h) (hs : sumsExcept h (some c))
    (hmod : h.modifyNode c Node.increaseWeight = some h3) :
    ∃ n, h.nodeRef c = some n ∧
      WFcore h3 ∧ sumsExcept h3 n.parent ∧
      h3.next = h.next ∧ h3.nyt = h.nyt ∧
      (∀ i, i ≠ c → wAt h3 i = wAt h i) ∧ wAt h3 c = wAt h c + 1 ∧
      (∀ p, n.parent = some p → p < c) ∧
      (∀ p, n.parent = some p → p < h3.next ∧
        ∃ nd, h3.nodeRef p = some nd ∧ ∀ q, nd ≠ .notYetTransmitted q) ∧
      (∃ n2, h3.nodeRef c = some n2 ∧ n2.parent = n.parent) := by
  obtain ⟨n, n', hn, hinc, hnyt3, hnext3, htlen3, hslen3, hsym3, href⟩ :=
    increment_shape hmod
  have hclt : c < h.next := by
    by_contra hge
    rw [hc.pop_ge c (by omega)] at hn
    exact absurd hn (by simp)
  have hpar' := increaseWeight_parent hinc
  have hwt' := increaseWeight_weight hinc
  have hnn := increaseWeight_not_nyt hinc
  have hcnyt : c ≠ h.nyt := by
    intro hceq
    obtain ⟨q, hq⟩ := hc.nyt_is
    rw [hceq, hq] at hn
    exact hnn.1 q (by injection hn with e; exact e.symm)
  have hparc : ∀ p, n.parent = some p → p < c := by
    intro p hp
    rcases eq_or_ne c 0 with rfl | hc0
    · rw [hc.root_par n hn] at hp
      exact absurd hp (by simp)
    · obtain ⟨p0, hp0, hp0lt, -⟩ := hc.par_exists c n hn hc0
      rw [hp0] at hp
      obtain rfl : p0 = p := by injection hp
      exact hp0lt
  have hwother : ∀ i, i ≠ c → wAt h3 i = wAt h i := by
    intro i hne
    unfold wAt
    rw [href i, if_neg hne]
  have hwc : wAt h3 c = wAt h c + 1 := by
    have h1 : h3.nodeRef c = some n' := by rw [href c, if_pos rfl]
    rw [wAt_eq_weight h1, wAt_eq_weight hn, hwt']
  have hwfcore : WFcore h3 := by
    refine ⟨htlen3 ▸ hc.tree_len, hslen3 ▸ hc.sym_len, hnext3 ▸ hc.next_le,
      by rw [hnyt3, hnext3]; exact hc.nyt_eq, ?_, ?_, ?_, ?_, ?_, ?_, ?_, ?_,
      ?_, ?_, ?_, ?_⟩
    · intro i hi
      rw [hnext3] at hi
      rw [href i]
      rcases eq_or_ne i c with rfl | hne
      · exact ⟨n', by rw [if_pos rfl]⟩
      · rw [if_neg hne]
        exact hc.pop_lt i hi
    · intro i hi
      rw [hnext3] at hi
      rw [href i, if_neg (by omega)]
      exact hc.pop_ge i hi
    · obtain ⟨q, hq⟩ := hc.nyt_is
      refine ⟨q, ?_⟩
      rw [hnyt3, href h.nyt, if_neg (Ne.symm hcnyt)]
      exact hq
    · intro i p hi
      rw [href i] at hi
      rcases eq_or_ne i c with rfl | hne
      · rw [if_pos rfl] at hi
        exact absurd (Option.some.inj hi) (hnn.2 p)
      · rw [if_neg hne] at hi
        rw [hnyt3]
        exact hc.nyt_unique i p hi
    · intro nd hnd
      rw [href 0] at hnd
      rcases eq_or_ne (0 : Nat) c with hceq | hne
      · rw [if_pos hceq] at hnd
        obtain rfl : n' = nd := by injection hnd
        rw [hpar']
        exact hc.root_par n (by rw [hceq]; exact hn)
      · rw [if_neg hne] at hnd
        exact hc.root_par nd hnd
    · intro i nd hnd hne0
      rw [href i] at hnd
      rcases eq_or_ne i c with rfl | hne
      · rw [if_pos rfl] at hnd
        obtain rfl : n' = nd := by injection hnd
        obtain ⟨p, hp, hplt, pp, l, r, w, hint, hor⟩ := hc.par_exists i n hn hne0
        refine ⟨p, by rw [hpar']; exact hp, hplt, pp, l, r, w, ?_, hor⟩
        rw [href p, if_neg (by omega)]
        exact hint
      · rw [if_neg hne] at hnd
        obtain ⟨p, hp, hplt, pp, l, r, w, hint, hor⟩ := hc.par_exists i nd hnd hne0
        refine ⟨p, hp, hplt, ?_⟩
        rcases eq_or_ne p c with rfl | hpc
        · obtain rfl : n = Node.internal pp l r w := by
            rw [hn] at hint; injection hint
          have hint' := increaseWeight_internal hinc pp l r w rfl
          exact ⟨pp, l, r, w + 1, by rw [href p, if_pos rfl, hint'], hor⟩
        · exact ⟨pp, l, r, w, by rw [href p, if_neg hpc]; exact hint, hor⟩
    · intro i pp l r w hint
      rw [href i] at hint
      rcases eq_or_ne i c with rfl | hne
      · rw [if_pos rfl] at hint
        obtain ⟨w0, rfl, hn0⟩ := increaseWeight_internal_inv hinc pp l r w
          (Option.some.inj hint)
        rw [hn0] at hn
        obtain ⟨hlr, hir, hln, ⟨nl, hnl, hnlp⟩, ⟨nr, hnr, hnrp⟩⟩ :=
          hc.child_link i pp l r w0 hn
        refine ⟨hlr, hir, hnext3 ▸ hln, ⟨nl, ?_, hnlp⟩, ⟨nr, ?_, hnrp⟩⟩
        · rw [href l, if_neg (by omega)]
          exact hnl
        · rw [href r, if_neg (by omega)]
          exact hnr
      · rw [if_neg hne] at hint
        obtain ⟨hlr, hir, hln, ⟨nl, hnl, hnlp⟩, ⟨nr, hnr, hnrp⟩⟩ :=
          hc.child_link i pp l r w hint
        refine ⟨hlr, hir, hnext3 ▸ hln, ?_, ?_⟩
        · rcases eq_or_ne l c with rfl | hlc
          · obtain rfl : n = nl := by rw [hn] at hnl; injection hnl
            exact ⟨n', by rw [href l, if_pos rfl], by rw [hpar']; exact hnlp⟩
          · exact ⟨nl, by rw [href l, if_neg hlc]; exact hnl, hnlp⟩
        · rcases eq_or_ne r c with rfl | hrc
          · obtain rfl : n = nr := by rw [hn] at hnr; injection hnr
            exact ⟨n', by rw [href r, if_pos rfl], by rw [hpar']; exact hnrp⟩
          · exact ⟨nr, by rw [href r, if_neg hrc]; exact hnr, hnrp⟩
    · intro p hp
      rw [hnyt3, href h.nyt, if_neg (Ne.symm hcnyt)] at hp
      rw [hnext3]
      exact hc.nyt_par_adj p hp
    · intro i p w sN hleaf
      rw [href i] at hleaf
      rcases eq_or_ne i c with rfl | hne
      · rw [if_pos rfl] at hleaf
        obtain ⟨w0, rfl, -⟩ := increaseWeight_leaf_inv hinc p w sN
          (Option.some.inj hleaf)
        omega
      · rw [if_neg hne] at hleaf
        exact hc.leaf_pos i p w sN hleaf
    · intro i pp l r w hint
      rw [href i] at hint
      rcases eq_or_ne i c with rfl | hne
      · rw [if_pos rfl] at hint
        obtain ⟨w0, rfl, -⟩ := increaseWeight_internal_inv hinc pp l r w
          (Option.some.inj hint)
        omega
      · rw [if_neg hne] at hint
        exact hc.int_pos i pp l r w hint
    · intro sN i hsi
      rw [hsym3 sN] at hsi
      obtain ⟨p, w, hleaf⟩ := hc.sym_to_leaf sN i hsi
      rcases eq_or_ne i c with rfl | hne
      · obtain rfl : n = Node.leaf p w sN := by rw [hn] at hleaf; injection hleaf
        exact ⟨p, w + 1, by rw [href i, if_pos rfl,
          increaseWeight_leaf hinc p w sN rfl]⟩
      · exact ⟨p, w, by rw [href i, if_neg hne]; exact hleaf⟩
    · intro i p w sN hleaf
      rw [href i] at hleaf
      rw [hsym3 sN]
      rcases eq_or_ne i c with rfl | hne
      · rw [if_pos rfl] at hleaf
        obtain ⟨w0, rfl, hn0⟩ := increaseWeight_leaf_inv hinc p w sN
          (Option.some.inj hleaf)
        exact hc.leaf_to_sym i p w0 sN (by rw [← hn0]; exact hn)
      · rw [if_neg hne] at hleaf
        exact hc.leaf_to_sym i p w sN hleaf
  refine ⟨n, hn, hwfcore, ?_, hnext3, hnyt3, hwother, hwc, hparc, ?_,
    n', by rw [href c, if_pos rfl], hpar'⟩
  · intro i pp l r w hint
    rw [href i] at hint
    rcases eq_or_ne i c with rfl | hne
    · rw [if_pos rfl] at hint
      obtain ⟨w0, rfl, hn0⟩ := increaseWeight_internal_inv hinc pp l r w
        (Option.some.inj hint)
      rw [hn0] at hn
      obtain ⟨hlr, hir, -, -, -⟩ := hc.child_link i pp l r w0 hn
      have hsum := hs i pp l r w0 hn
      rw [if_pos rfl] at hsum
      have hcases : n.parent ≠ some i := by
        intro hp
        have := hparc i hp
        omega
      rw [if_neg hcases]
      rw [hwother l (by omega), hwother r (by omega)]
      omega
    · rw [if_neg hne] at hint
      have hsum := hs i pp l r w hint
      rw [if_neg (by simpa using Ne.symm hne)] at hsum
      obtain ⟨hlr, hir, -, ⟨nl, hnl, hnlp⟩, ⟨nr, hnr, hnrp⟩⟩ :=
        hc.child_link i pp l r w hint
      by_cases hcl : l = c
      · subst hcl
        obtain rfl : n = nl := by rw [hn] at hnl; injection hnl
        rw [if_pos hnlp, hwother r (by omega), hwc]
        omega
      · by_cases hcr : r = c
        · subst hcr
          obtain rfl : n = nr := by rw [hn] at hnr; injection hnr
          rw [if_pos hnrp, hwother l (by omega), hwc]
          omega
        · have hcond : n.parent ≠ some i := by
            intro hp
            rcases eq_or_ne c 0 with rfl | hc0
            · rw [hc.root_par n hn] at hp
              exact absurd hp (by simp)
            · obtain ⟨p0, hp0, -, pp2, l2, r2, w2, hint2, hor2⟩ :=
                hc.par_exists c n hn hc0
              rw [hp0] at hp
              obtain rfl : p0 = i := by injection hp
              rw [hint] at hint2
              obtain ⟨rfl, rfl⟩ : l = l2 ∧ r = r2 := by
                injection hint2 with e
                injection e with e1 e2 e3 e4
                exact ⟨e2, e3⟩
              rcases hor2 with rfl | rfl
              · exact hcl rfl
              · exact hcr rfl
          rw [if_neg hcond, hwother l hcl, hwother r hcr]
          exact hsum
  · intro p hp
    have hplt := hparc p hp
    rcases eq_or_ne c 0 with rfl | hc0
    · omega
    · obtain ⟨p0, hp0, hp0lt, pp, l, r, w, hint, -⟩ := hc.par_exists c n hn hc0
      rw [hp0] at hp
      obtain rfl : p0 = p := Option.some.inj hp
      refine ⟨by omega, Node.internal pp l r w, ?_, by simp⟩
      rw [href p0, if_neg (by omega)]
      exact hint

/-! ### `setParent` characterizations -/

theorem setParent_eq_internal {n : Node} {y : Nat} {pp : Option Nat}
    {l r w : Nat} (hh : n.setParent y = .internal pp l r w) :
    pp = some y ∧ ∃ pp0, n = .internal pp0 l r w := by
  cases n with
  | notYetTransmitted q => exact absurd hh (by simp [Node.setParent])
  | leaf p0 w0 s0 => exact absurd hh (by simp [Node.setParent])
  | internal pp0 l0 r0 w0 =>
    simp only [Node.setParent] at hh
    injection hh with e1 e2 e3 e4
    exact ⟨e1.symm, pp0, by rw [e2, e3, e4]⟩

theorem setParent_eq_leaf {n : Node} {y p w s : Nat}
    (hh : n.setParent y = .leaf p w s) :
    p = y ∧ ∃ p0, n = .leaf p0 w s := by
  cases n with
  | notYetTransmitted q => exact absurd hh (by simp [Node.setParent])
  | internal pp0 l0 r0 w0 => exact absurd hh (by simp [Node.setParent])
  | leaf p0 w0 s0 =>
    simp only [Node.setParent] at hh
    injection hh with e1 e2 e3
    exact ⟨e1.symm, p0, by rw [e2, e3]⟩

theorem setParent_eq_nyt {n : Node} {y : Nat} {q : Option Nat}
    (hh : n.setParent y = .notYetTransmitted q) :
    ∃ q0, n = .notYetTransmitted q0 := by
  cases n with
  | notYetTransmitted q0 => exact ⟨q0, rfl⟩
  | leaf p0 w0 s0 => exact absurd hh (by simp [Node.setParent])
  | internal pp0 l0 r0 w0 => exact absurd hh (by simp [Node.setParent])

theorem childOf_internal {pp : Option Nat} {l r w i : Nat} :
    ChildOf (.internal pp l r w) i ↔ (i = l ∨ i = r) := by
  constructor
  · rintro ⟨pp2, l2, r2, w2, heq, hor⟩
    injection heq with e1 e2 e3 e4
    rw [e2, e3]
    exact hor
  · intro hor
    exact ⟨pp, l, r, w, rfl, hor⟩

theorem childOf_not_nyt {n : Node} {i : Nat} (hco : ChildOf n i) :
    ∀ q, n ≠ .notYetTransmitted q := by
  obtain ⟨pp, l, r, w, rfl, -⟩ := hco
  simp

/-- After a successful swap of two equal-weight nodes, every slot weighs
exactly what it weighed before. -/
theorem swapShape_wAt {h h2 : Huffman} {a b pa pb : Nat} {na nb : Node}
    (hS : SwapShape h h2 a b pa pb na nb)
    (hna : h.nodeRef a = some na) (hnb : h.nodeRef b = some nb)
    (hw : na.weight = nb.weight) :
    ∀ i, wAt h2 i = wAt h i := by
  intro i
  rcases eq_or_ne i a with rfl | hia
  · rw [wAt_eq_weight hS.at_a, wAt_eq_weight hna, Node.weight_setParent, hw]
  · rcases eq_or_ne i b with rfl | hib
    · rw [wAt_eq_weight hS.at_b, wAt_eq_weight hnb, Node.weight_setParent, hw]
    · by_cases hcna : ChildOf na i
      · rw [wAt, hS.at_ca i hcna, wAt]
        cases h.nodeRef i with
        | none => rfl
        | some m => simp [Node.weight_setParent]
      · by_cases hcnb : ChildOf nb i
        · rw [wAt, hS.at_cb i hcnb, wAt]
          cases h.nodeRef i with
          | none => rfl
          | some m => simp [Node.weight_setParent]
        · rw [wAt, hS.at_other i hia hib hcna hcnb, wAt]

/-! ### The top of the arena -/

/-- A populated non-NYT node whose parent sits at `next - 3` is the NYT
sibling `next - 2`, and that parent's children are the top pair. -/
theorem parent_adj_top {h : Huffman} (hc : WFcore h) {i p : Nat} {nd : Node}
    (hnd : h.nodeRef i = some nd) (hpar : nd.parent = some p)
    (hadj : p + 3 = h.next) (hnn : ∀ q, nd ≠ .notYetTransmitted q) :
    i + 2 = h.next ∧
    ∃ pp w, h.nodeRef p = some (.internal pp (h.next - 1) (h.next - 2) w) := by
  have hne := hc.nyt_eq
  obtain ⟨q, hq⟩ := hc.nyt_is
  have hnyt0 : h.nyt ≠ 0 := by omega
  obtain ⟨q', hq', hq'lt, pp, l, r, w, hint, hor⟩ :=
    hc.par_exists h.nyt _ hq hnyt0
  have hqq : q = some q' := hq'
  have hadj2 : q' + 3 = h.next := hc.nyt_par_adj q' (by rw [hq, hqq])
  obtain rfl : p = q' := by omega
  obtain ⟨hlr, hpr, hln, ⟨nl, hnl, hnlp⟩, -⟩ := hc.child_link p pp l r w hint
  have hlnyt : l = h.nyt ∧ r = h.nyt - 1 := by
    rcases hor with h1 | h1
    · omega
    · omega
  have hi0 : i ≠ 0 := by
    intro h0
    subst h0
    rw [hc.root_par nd hnd] at hpar
    exact absurd hpar (by simp)
  obtain ⟨p2, hp2, hp2lt, pp2, l2, r2, w2, hint2, hor2⟩ :=
    hc.par_exists i nd hnd hi0
  rw [hpar] at hp2
  obtain rfl : p = p2 := Option.some.inj hp2
  rw [hint] at hint2
  obtain ⟨rfl, rfl⟩ : l = l2 ∧ r = r2 := by
    injection hint2 with e
    injection e with e1 e2 e3 e4
    exact ⟨e2, e3⟩
  have hinyt : i ≠ h.nyt := by
    intro heq
    rw [heq, hq] at hnd
    exact hnn q (Option.some.inj hnd).symm
  have hi2 : i + 2 = h.next := by omega
  refine ⟨hi2, pp, w, ?_⟩
  rw [show h.next - 1 = l by omega, show h.next - 2 = r by omega]
  exact hint

/-- If a node's parent weighs the same as the node itself, the node is the
NYT sibling `next - 2` and its parent is at `next - 3`. -/
theorem guard_shape {h : Huffman} (hc : WFcore h) {c : Nat}
    (hs : sumsExcept h (some c)) {pa : Nat} {na : Node}
    (hna : h.nodeRef c = some na) (hpar : na.parent = some pa)
    (hwEq : wAt h pa = wAt h c) :
    c + 2 = h.next ∧ pa + 3 = h.next := by
  have hne := hc.nyt_eq
  have hi0 : c ≠ 0 := by
    intro h0
    subst h0
    rw [hc.root_par na hna] at hpar
    exact absurd hpar (by simp)
  obtain ⟨p2, hp2, hp2lt, pp, l, r, w, hint, hor⟩ :=
    hc.par_exists c na hna hi0
  rw [hpar] at hp2
  obtain rfl : pa = p2 := Option.some.inj hp2
  obtain ⟨hlr, hpr, hln, ⟨nl, hnl, hnlp⟩, -⟩ := hc.child_link pa pp l r w hint
  have hsum := hs pa pp l r w hint
  rw [if_neg (by simp; omega)] at hsum
  have hwpa : wAt h pa = w := wAt_eq_weight hint
  rcases hor with rfl | rfl
  · have hr0 : wAt h r = 0 := by omega
    have hrnyt : r = h.nyt := zero_weight_nyt hc (by omega) hr0
    omega
  · have hl0 : wAt h l = 0 := by omega
    have hlnyt : l = h.nyt := zero_weight_nyt hc (by omega) hl0
    obtain ⟨q, hq⟩ := hc.nyt_is
    rw [hlnyt, hq] at hnl
    obtain rfl : Node.notYetTransmitted q = nl := Option.some.inj hnl
    have hqq : q = some pa := hnlp
    have hadj := hc.nyt_par_adj pa (by rw [hq, hqq])
    omega

/-- When the node standing under the promotion loop is its own block
leader, its parent is not the slot `next - 3`. -/
theorem leader_self_parent_far {h : Huffman} (hc : WFcore h) {c : Nat}
    (hs : sumsExcept h (some c)) {na : Node}
    (hmin : ∀ y, y < c → wAt h c < wAt h y)
    (hna : h.nodeRef c = some na) (hnn : ∀ q, na ≠ .notYetTransmitted q) :
    ∀ p, na.parent = some p → p + 3 ≠ h.next := by
  intro p hp hadj
  obtain ⟨hc2, pp, w, hint⟩ := parent_adj_top hc hna hp hadj hnn
  have hne := hc.nyt_eq
  have hsum := hs p pp (h.next - 1) (h.next - 2) w hint
  rw [if_neg (by simp; omega)] at hsum
  have hz : wAt h (h.next - 1) = 0 := by
    rw [show h.next - 1 = h.nyt by omega]
    exact wAt_nyt_zero hc
  have hwp : wAt h p = w := wAt_eq_weight hint
  have hcc : h.next - 2 = c := by omega
  rw [hcc] at hsum
  have hlt := hmin p (by omega)
  omega

/-- A promotion-loop swap with the block leader preserves the structural
invariant, the sum discipline (now anchored at the leader slot) and every
slot weight. -/
theorem swap_preserves {h h2 : Huffman} {c ld : Nat} {na : Node}
    (hcore : WFcore h) (hs : sumsExcept h (some c)) (ho : orderAll h)
    (hcn : c < h.next)
    (hna : h.nodeRef c = some na) (hnaNYT : ∀ q, na ≠ .notYetTransmitted q)
    (hlt : ld < c) (hwEq : wAt h ld = wAt h c)
    (hnotpar : na.parent ≠ some ld)
    (hcne3 : c + 3 ≠ h.next)
    (hsw : h.swap_nodes c ld = some h2) :
    WFcore h2 ∧ sumsExcept h2 (some ld) ∧ (∀ i, wAt h2 i = wAt h i) ∧
    h2.next = h.next ∧ h2.nyt = h.nyt ∧
    ∃ nb pb, h.nodeRef ld = some nb ∧ nb.parent = some pb ∧
      h2.nodeRef ld = some (na.setParent pb) ∧
      (∀ q, nb ≠ .notYetTransmitted q) := by
  have hnyteq := hcore.nyt_eq
  have hldn : ld < h.next := by omega
  obtain ⟨nb, hnb⟩ := hcore.pop_lt ld hldn
  have hwc1 : 1 ≤ wAt h c := wAt_pos hcore hna hnaNYT
  have hnbNYT : ∀ q, nb ≠ .notYetTransmitted q := by
    intro q hq
    rw [wAt_eq_weight hnb, hq] at hwEq
    simp only [Node.weight] at hwEq
    omega
  have hcne : c ≠ ld := by omega
  obtain ⟨qn, hq⟩ := hcore.nyt_is
  have hcnyt : c ≠ h.nyt := by
    intro heq
    rw [heq, hq] at hna
    exact hnaNYT qn (Option.some.inj hna).symm
  have hldnyt : ld ≠ h.nyt := by
    intro heq
    rw [heq, hq] at hnb
    exact hnbNYT qn (Option.some.inj hnb).symm
  have hld3 : ld + 3 ≠ h.next := by
    intro hadj
    have hnyt0 : h.nyt ≠ 0 := by omega
    obtain ⟨q', hq', hq'lt, pp, l, r, w, hint, hor⟩ :=
      hcore.par_exists h.nyt _ hq hnyt0
    have hqq : qn = some q' := hq'
    have hadj2 : q' + 3 = h.next := hcore.nyt_par_adj q' (by rw [hq, hqq])
    obtain rfl : ld = q' := by omega
    obtain ⟨hlr, hpr, hln, -, ⟨nr, hnr, hnrp⟩⟩ :=
      hcore.child_link ld pp l r w hint
    have hlnyt : l = h.nyt ∧ r = h.nyt - 1 := by
      rcases hor with h1 | h1 <;> omega
    have hceq : c = r := by omega
    rw [← hceq, hna] at hnr
    obtain rfl : na = nr := Option.some.inj hnr
    exact hnotpar hnrp
  have hnachild : ∀ i, ChildOf na i → c < i := by
    rintro i ⟨pp, l, r, w, hnaeq, hor⟩
    rw [hnaeq] at hna
    obtain ⟨hlr, hcr, hln, -, -⟩ := hcore.child_link c pp l r w hna
    rcases hor with rfl | rfl <;> omega
  have hnbchild : ∀ i, ChildOf nb i → c < i := by
    rintro i ⟨pp, l, r, w, hnbeq, hor⟩
    rw [hnbeq] at hnb
    obtain ⟨hlr, hldr, hln, ⟨nl, hnl, hnlp⟩, -⟩ :=
      hcore.child_link ld pp l r w hnb
    have hsum := hs ld pp l r w hnb
    rw [if_neg (by simp; omega)] at hsum
    have hwld : wAt h ld = w := wAt_eq_weight hnb
    have hwr : wAt h r ≠ 0 := by
      intro h0
      have := zero_weight_nyt hcore (show r < h.next by omega) h0
      omega
    have hwl : wAt h l ≠ 0 := by
      intro h0
      have hlny : l = h.nyt := zero_weight_nyt hcore (show l < h.next by omega) h0
      rw [hlny, hq] at hnl
      obtain rfl : Node.notYetTransmitted qn = nl := Option.some.inj hnl
      have hqq : qn = some ld := hnlp
      have := hcore.nyt_par_adj ld (by rw [hq, hqq])
      omega
    have hchild_lt : ∀ j, (j = l ∨ j = r) → wAt h j < wAt h c := by
      rintro j (rfl | rfl) <;> omega
    have hj := hchild_lt i hor
    rcases Nat.lt_trichotomy i c with hic | rfl | hic
    · have := ho i c hic hcn
      omega
    · omega
    · exact hic
  have hnachild_lt : ∀ i, ChildOf na i → i < h.next := by
    rintro i ⟨pp, l, r, w, hnaeq, hor⟩
    rw [hnaeq] at hna
    obtain ⟨hlr, hcr, hln, -, -⟩ := hcore.child_link c pp l r w hna
    rcases hor with rfl | rfl <;> omega
  have hnbchild_lt : ∀ i, ChildOf nb i → i < h.next := by
    rintro i ⟨pp, l, r, w, hnbeq, hor⟩
    rw [hnbeq] at hnb
    obtain ⟨hlr, hldr, hln, -, -⟩ := hcore.child_link ld pp l r w hnb
    rcases hor with rfl | rfl <;> omega
  have hbackA : ∀ i, ChildOf na i → ∃ m, h.nodeRef i = some m ∧
      m.parent = some c := by
    rintro i ⟨pp, l, r, w, hnaeq, hor⟩
    rw [hnaeq] at hna
    obtain ⟨-, -, -, ⟨nl, hnl, hnlp⟩, ⟨nr, hnr, hnrp⟩⟩ :=
      hcore.child_link c pp l r w hna
    rcases hor with rfl | rfl
    · exact ⟨nl, hnl, hnlp⟩
    · exact ⟨nr, hnr, hnrp⟩
  have hbackB : ∀ i, ChildOf nb i → ∃ m, h.nodeRef i = some m ∧
      m.parent = some ld := by
    rintro i ⟨pp, l, r, w, hnbeq, hor⟩
    rw [hnbeq] at hnb
    obtain ⟨-, -, -, ⟨nl, hnl, hnlp⟩, ⟨nr, hnr, hnrp⟩⟩ :=
      hcore.child_link ld pp l r w hnb
    rcases hor with rfl | rfl
    · exact ⟨nl, hnl, hnlp⟩
    · exact ⟨nr, hnr, hnrp⟩
  have hdisjAB : ∀ i, ChildOf na i → ¬ ChildOf nb i := by
    intro i hA hB
    obtain ⟨m, hm, hmc⟩ := hbackA i hA
    obtain ⟨m', hm', hmld⟩ := hbackB i hB
    rw [hm] at hm'
    obtain rfl : m = m' := Option.some.inj hm'
    rw [hmc] at hmld
    exact hcne (Option.some.inj hmld)
  obtain ⟨pa, pb, hpa, hpb, hS⟩ := swap_nodes_shape hna hnb hcne
    (fun i hco => ⟨by have := hnachild i hco; omega,
      by have := hnachild i hco; omega⟩)
    (fun i hco => ⟨by have := hnbchild i hco; omega,
      by have := hnbchild i hco; omega⟩)
    hdisjAB
    (by rintro pp l r w rfl
        obtain ⟨hlr, -, -, -, -⟩ := hcore.child_link c pp l r w hna
        omega)
    (by rintro pp l r w rfl
        obtain ⟨hlr, -, -, -, -⟩ := hcore.child_link ld pp l r w hnb
        omega)
    (by rintro p w sym rfl
        have := hcore.leaf_to_sym c p w sym hna
        have hlen := List.get?_eq_some.mp this
        exact hlen.1)
    (by rintro p w sym rfl
        have := hcore.leaf_to_sym ld p w sym hnb
        have hlen := List.get?_eq_some.mp this
        exact hlen.1)
    (by rintro p w sym p' w' sym' hA hB rfl
        have h1 := hcore.leaf_to_sym c p w sym (by rw [hna, hA])
        have h2 := hcore.leaf_to_sym ld p' w' sym (by rw [hnb, hB])
        rw [h1] at h2
        exact hcne (Option.some.inj (Option.some.inj h2)))
    hsw
  have hwAt : ∀ i, wAt h2 i = wAt h i :=
    swapShape_wAt hS hna hnb
      (by rw [← wAt_eq_weight hna, ← wAt_eq_weight hnb]; exact hwEq.symm)
  have hc0 : c ≠ 0 := by omega
  have hld0 : ld ≠ 0 := by
    intro h0
    subst h0
    rw [hcore.root_par nb hnb] at hpb
    exact absurd hpb (by simp)
  obtain ⟨pa2, hpa2, hpa2lt, ppa, la, ra, wa, hpaint, hpaor⟩ :=
    hcore.par_exists c na hna hc0
  rw [hpa] at hpa2
  obtain rfl : pa = pa2 := Option.some.inj hpa2
  obtain ⟨pb2, hpb2, hpb2lt, ppb, lb, rb, wb, hpbint, hpbor⟩ :=
    hcore.par_exists ld nb hnb hld0
  rw [hpb] at hpb2
  obtain rfl : pb = pb2 := Option.some.inj hpb2
  have hpald : pa ≠ ld := by
    intro h0
    exact hnotpar (h0 ▸ hpa)
  have hnytA : ¬ ChildOf na h.nyt := by
    intro hco
    obtain ⟨m, hm, hmp⟩ := hbackA h.nyt hco
    rw [hq] at hm
    obtain rfl : Node.notYetTransmitted qn = m := Option.some.inj hm
    have hqq : qn = some c := hmp
    have := hcore.nyt_par_adj c (by rw [hq, hqq])
    omega
  have hnytB : ¬ ChildOf nb h.nyt := by
    intro hco
    obtain ⟨m, hm, hmp⟩ := hbackB h.nyt hco
    rw [hq] at hm
    obtain rfl : Node.notYetTransmitted qn = m := Option.some.inj hm
    have hqq : qn = some ld := hmp
    have := hcore.nyt_par_adj ld (by rw [hq, hqq])
    omega
  have hnytslot : h2.nodeRef h.nyt = h.nodeRef h.nyt :=
    hS.at_other h.nyt (Ne.symm hcnyt) (Ne.symm hldnyt) hnytA hnytB
  have htransfer : ∀ i j nj, i ≠ c → i ≠ ld → h.nodeRef j = some nj →
      nj.parent = some i →
      ∃ nj2, h2.nodeRef j = some nj2 ∧ nj2.parent = some i := by
    intro i j nj hic hild hnj hpj
    rcases eq_or_ne j c with rfl | hjc
    · obtain rfl : na = nj := by rw [hna] at hnj; exact Option.some.inj hnj
      rw [hpa] at hpj
      obtain rfl : pa = i := Option.some.inj hpj
      exact ⟨nb.setParent pa, hS.at_a, Node.parent_setParent nb pa⟩
    · rcases eq_or_ne j ld with rfl | hjld
      · obtain rfl : nb = nj := by rw [hnb] at hnj; exact Option.some.inj hnj
        rw [hpb] at hpj
        obtain rfl : pb = i := Option.some.inj hpj
        exact ⟨na.setParent pb, hS.at_b, Node.parent_setParent na pb⟩
      · by_cases hjA : ChildOf na j
        · obtain ⟨m, hm, hmp⟩ := hbackA j hjA
          rw [hnj] at hm
          obtain rfl : nj = m := Option.some.inj hm
          rw [hpj] at hmp
          exact absurd (Option.some.inj hmp) hic
        · by_cases hjB : ChildOf nb j
          · obtain ⟨m, hm, hmp⟩ := hbackB j hjB
            rw [hnj] at hm
            obtain rfl : nj = m := Option.some.inj hm
            rw [hpj] at hmp
            exact absurd (Option.some.inj hmp) hild
          · exact ⟨nj, by rw [hS.at_other j hjc hjld hjA hjB]; exact hnj, hpj⟩
  have hIntAt : ∀ p pp l r w, p ≠ c → p ≠ ld →
      h.nodeRef p = some (.internal pp l r w) →
      ∃ pp2, h2.nodeRef p = some (.internal pp2 l r w) := by
    intro p pp l r w hpc hpld hint
    by_cases hpA : ChildOf na p
    · refine ⟨some ld, ?_⟩
      rw [hS.at_ca p hpA, hint]
      rfl
    · by_cases hpB : ChildOf nb p
      · refine ⟨some c, ?_⟩
        rw [hS.at_cb p hpB, hint]
        rfl
      · exact ⟨pp, by rw [hS.at_other p hpc hpld hpA hpB]; exact hint⟩
  have hInv : ∀ i m2, h2.nodeRef i = some m2 →
      (i = c ∧ m2 = nb.setParent pa) ∨ (i = ld ∧ m2 = na.setParent pb) ∨
      (i ≠ c ∧ i ≠ ld ∧ ChildOf na i ∧
        ∃ m, h.nodeRef i = some m ∧ m2 = m.setParent ld) ∨
      (i ≠ c ∧ i ≠ ld ∧ ChildOf nb i ∧
        ∃ m, h.nodeRef i = some m ∧ m2 = m.setParent c) ∨
      (i ≠ c ∧ i ≠ ld ∧ ¬ ChildOf na i ∧ ¬ ChildOf nb i ∧
        h.nodeRef i = some m2) := by
    intro i m2 hm2
    rcases eq_or_ne i c with rfl | hic
    · left
      rw [hS.at_a] at hm2
      exact ⟨rfl, (Option.some.inj hm2).symm⟩
    · rcases eq_or_ne i ld with rfl | hild
      · right; left
        rw [hS.at_b] at hm2
        exact ⟨rfl, (Option.some.inj hm2).symm⟩
      · by_cases hiA : ChildOf na i
        · right; right; left
          refine ⟨hic, hild, hiA, ?_⟩
          rw [hS.at_ca i hiA] at hm2
          cases hnode : h.nodeRef i with
          | none => rw [hnode] at hm2; exact absurd hm2 (by simp)
          | some m =>
            rw [hnode] at hm2
            exact ⟨m, rfl, (Option.some.inj hm2).symm⟩
        · by_cases hiB : ChildOf nb i
          · right; right; right; left
            refine ⟨hic, hild, hiB, ?_⟩
            rw [hS.at_cb i hiB] at hm2
            cases hnode : h.nodeRef i with
            | none => rw [hnode] at hm2; exact absurd hm2 (by simp)
            | some m =>
              rw [hnode] at hm2
              exact ⟨m, rfl, (Option.some.inj hm2).symm⟩
          · right; right; right; right
            rw [hS.at_other i hic hild hiA hiB] at hm2
            exact ⟨hic, hild, hiA, hiB, hm2⟩
  have hFwd : ∀ i, i < h.next → ∃ m2, h2.nodeRef i = some m2 := by
    intro i hi
    rcases eq_or_ne i c with rfl | hic
    · exact ⟨nb.setParent pa, hS.at_a⟩
    · rcases eq_or_ne i ld with rfl | hild
      · exact ⟨na.setParent pb, hS.at_b⟩
      · by_cases hiA : ChildOf na i
        · obtain ⟨m, hm, -⟩ := hbackA i hiA
          exact ⟨m.setParent ld, by rw [hS.at_ca i hiA, hm]; rfl⟩
        · by_cases hiB : ChildOf nb i
          · obtain ⟨m, hm, -⟩ := hbackB i hiB
            exact ⟨m.setParent c, by rw [hS.at_cb i hiB, hm]; rfl⟩
          · obtain ⟨m, hm⟩ := hcore.pop_lt i hi
            exact ⟨m, by rw [hS.at_other i hic hild hiA hiB]; exact hm⟩
  have hwf2 : WFcore h2 := by
    refine ⟨hS.tlen ▸ hcore.tree_len, hS.slen ▸ hcore.sym_len,
      hS.next_eq ▸ hcore.next_le,
      by rw [hS.nyt_eq, hS.next_eq]; exact hnyteq,
      ?_, ?_, ?_, ?_, ?_, ?_, ?_, ?_, ?_, ?_, ?_, ?_⟩
    · intro i hi
      rw [hS.next_eq] at hi
      exact hFwd i hi
    · intro i hi
      rw [hS.next_eq] at hi
      rw [hS.at_other i (by omega) (by omega)
        (fun hco => by have := hnachild_lt i hco; omega)
        (fun hco => by have := hnbchild_lt i hco; omega)]
      exact hcore.pop_ge i hi
    · rw [hS.nyt_eq, hnytslot]
      exact ⟨qn, hq⟩
    · intro i p hi
      rw [hS.nyt_eq]
      rcases hInv i _ hi with ⟨rfl, hm⟩ | ⟨rfl, hm⟩ |
        ⟨hic, hild, hiA, m, hmm, hm2⟩ | ⟨hic, hild, hiB, m, hmm, hm2⟩ |
        ⟨hic, hild, hiA, hiB, hmm⟩
      · obtain ⟨q0, hq0⟩ := setParent_eq_nyt hm.symm
        exact absurd hq0 (hnbNYT q0)
      · obtain ⟨q0, hq0⟩ := setParent_eq_nyt hm.symm
        exact absurd hq0 (hnaNYT q0)
      · obtain ⟨q0, hq0⟩ := setParent_eq_nyt hm2.symm
        rw [hq0] at hmm
        exact hcore.nyt_unique i q0 hmm
      · obtain ⟨q0, hq0⟩ := setParent_eq_nyt hm2.symm
        rw [hq0] at hmm
        exact hcore.nyt_unique i q0 hmm
      · exact hcore.nyt_unique i p hmm
    · intro nd hnd
      rw [hS.at_other 0 (by omega) (Ne.symm hld0)
        (fun hco => by have := hnachild 0 hco; omega)
        (fun hco => by have := hnbchild 0 hco; omega)] at hnd
      exact hcore.root_par nd hnd
    · intro i nd hnd hne0
      rcases hInv i _ hnd with ⟨rfl, rfl⟩ | ⟨rfl, rfl⟩ |
        ⟨hic, hild, hiA, m, hmm, rfl⟩ | ⟨hic, hild, hiB, m, hmm, rfl⟩ |
        ⟨hic, hild, hiA, hiB, hmm⟩
      · refine ⟨pa, Node.parent_setParent nb pa, hpa2lt, ?_⟩
        obtain ⟨pp2, hint2⟩ := hIntAt pa ppa la ra wa (by omega) hpald hpaint
        exact ⟨pp2, la, ra, wa, hint2, hpaor⟩
      · refine ⟨pb, Node.parent_setParent na pb, hpb2lt, ?_⟩
        obtain ⟨pp2, hint2⟩ := hIntAt pb ppb lb rb wb (by omega) (by omega) hpbint
        exact ⟨pp2, lb, rb, wb, hint2, hpbor⟩
      · refine ⟨ld, Node.parent_setParent m ld,
          by have := hnachild i hiA; omega, ?_⟩
        obtain ⟨ppA, lA, rA, wA, hnaeq, horA⟩ := hiA
        refine ⟨some pb, lA, rA, wA, ?_, horA⟩
        rw [hS.at_b, hnaeq]
        rfl
      · refine ⟨c, Node.parent_setParent m c, hnbchild i hiB, ?_⟩
        obtain ⟨ppB, lB, rB, wB, hnbeq, horB⟩ := hiB
        refine ⟨some pa, lB, rB, wB, ?_, horB⟩
        rw [hS.at_a, hnbeq]
        rfl
      · obtain ⟨p, hp, hplt, pp, l, r, w, hint, hor⟩ :=
          hcore.par_exists i nd hmm hne0
        have hpc : p ≠ c := by
          rintro rfl
          rw [hna] at hint
          exact hiA ⟨pp, l, r, w, Option.some.inj hint, hor⟩
        have hpld : p ≠ ld := by
          rintro rfl
          rw [hnb] at hint
          exact hiB ⟨pp, l, r, w, Option.some.inj hint, hor⟩
        obtain ⟨pp2, hint2⟩ := hIntAt p pp l r w hpc hpld hint
        exact ⟨p, hp, hplt, pp2, l, r, w, hint2, hor⟩
    · intro i pp l r w hint2
      rcases hInv i _ hint2 with ⟨rfl, hm⟩ | ⟨rfl, hm⟩ |
        ⟨hic, hild, hiA, m, hmm, hm2⟩ | ⟨hic, hild, hiB, m, hmm, hm2⟩ |
        ⟨hic, hild, hiA, hiB, hmm⟩
      · obtain ⟨-, pp0, hnbeq⟩ := setParent_eq_internal hm.symm
        have hcol : ChildOf nb l := ⟨pp0, l, r, w, hnbeq, Or.inl rfl⟩
        have hcor : ChildOf nb r := ⟨pp0, l, r, w, hnbeq, Or.inr rfl⟩
        have hnb2 : h.nodeRef ld = some (.internal pp0 l r w) := by
          rw [hnb, hnbeq]
        obtain ⟨hlr, hldr, hln, -, -⟩ := hcore.child_link ld pp0 l r w hnb2
        refine ⟨hlr, hnbchild r hcor, hS.next_eq ▸ hln, ?_, ?_⟩
        · obtain ⟨ml, hml, -⟩ := hbackB l hcol
          exact ⟨ml.setParent i, by rw [hS.at_cb l hcol, hml]; rfl,
            Node.parent_setParent ml i⟩
        · obtain ⟨mr, hmr, -⟩ := hbackB r hcor
          exact ⟨mr.setParent i, by rw [hS.at_cb r hcor, hmr]; rfl,
            Node.parent_setParent mr i⟩
      · obtain ⟨-, pp0, hnaeq⟩ := setParent_eq_internal hm.symm
        have hcol : ChildOf na l := ⟨pp0, l, r, w, hnaeq, Or.inl rfl⟩
        have hcor : ChildOf na r := ⟨pp0, l, r, w, hnaeq, Or.inr rfl⟩
        have hna2 : h.nodeRef c = some (.internal pp0 l r w) := by
          rw [hna, hnaeq]
        obtain ⟨hlr, hcr2, hln, -, -⟩ := hcore.child_link c pp0 l r w hna2
        refine ⟨hlr, by omega, hS.next_eq ▸ hln, ?_, ?_⟩
        · obtain ⟨ml, hml, -⟩ := hbackA l hcol
          exact ⟨ml.setParent i, by rw [hS.at_ca l hcol, hml]; rfl,
            Node.parent_setParent ml i⟩
        · obtain ⟨mr, hmr, -⟩ := hbackA r hcor
          exact ⟨mr.setParent i, by rw [hS.at_ca r hcor, hmr]; rfl,
            Node.parent_setParent mr i⟩
      · obtain ⟨-, pp0, hmeq⟩ := setParent_eq_internal hm2.symm
        rw [hmeq] at hmm
        obtain ⟨hlr, hir, hln, ⟨nl, hnl, hnlp⟩, ⟨nr, hnr, hnrp⟩⟩ :=
          hcore.child_link i pp0 l r w hmm
        exact ⟨hlr, hir, hS.next_eq ▸ hln, htransfer i l nl hic hild hnl hnlp,
          htransfer i r nr hic hild hnr hnrp⟩
      · obtain ⟨-, pp0, hmeq⟩ := setParent_eq_internal hm2.symm
        rw [hmeq] at hmm
        obtain ⟨hlr, hir, hln, ⟨nl, hnl, hnlp⟩, ⟨nr, hnr, hnrp⟩⟩ :=
          hcore.child_link i pp0 l r w hmm
        exact ⟨hlr, hir, hS.next_eq ▸ hln, htransfer i l nl hic hild hnl hnlp,
          htransfer i r nr hic hild hnr hnrp⟩
      · obtain ⟨hlr, hir, hln, ⟨nl, hnl, hnlp⟩, ⟨nr, hnr, hnrp⟩⟩ :=
          hcore.child_link i pp l r w hmm
        exact ⟨hlr, hir, hS.next_eq ▸ hln, htransfer i l nl hic hild hnl hnlp,
          htransfer i r nr hic hild hnr hnrp⟩
    · intro p hp
      rw [hS.nyt_eq, hnytslot] at hp
      rw [hS.next_eq]
      exact hcore.nyt_par_adj p hp
    · intro i p w sym hleaf
      rcases hInv i _ hleaf with ⟨rfl, hm⟩ | ⟨rfl, hm⟩ |
        ⟨hic, hild, hiA, m, hmm, hm2⟩ | ⟨hic, hild, hiB, m, hmm, hm2⟩ |
        ⟨hic, hild, hiA, hiB, hmm⟩
      · obtain ⟨-, p0, hnbeq⟩ := setParent_eq_leaf hm.symm
        exact hcore.leaf_pos ld p0 w sym (by rw [hnb, hnbeq])
      · obtain ⟨-, p0, hnaeq⟩ := setParent_eq_leaf hm.symm
        exact hcore.leaf_pos c p0 w sym (by rw [hna, hnaeq])
      · obtain ⟨-, p0, hmeq⟩ := setParent_eq_leaf hm2.symm
        rw [hmeq] at hmm
        exact hcore.leaf_pos i p0 w sym hmm
      · obtain ⟨-, p0, hmeq⟩ := setParent_eq_leaf hm2.symm
        rw [hmeq] at hmm
        exact hcore.leaf_pos i p0 w sym hmm
      · exact hcore.leaf_pos i p w sym hmm
    · intro i pp l r w hint2
      rcases hInv i _ hint2 with ⟨rfl, hm⟩ | ⟨rfl, hm⟩ |
        ⟨hic, hild, hiA, m, hmm, hm2⟩ | ⟨hic, hild, hiB, m, hmm, hm2⟩ |
        ⟨hic, hild, hiA, hiB, hmm⟩
      · obtain ⟨-, pp0, hnbeq⟩ := setParent_eq_internal hm.symm
        exact hcore.int_pos ld pp0 l r w (by rw [hnb, hnbeq])
      · obtain ⟨-, pp0, hnaeq⟩ := setParent_eq_internal hm.symm
        exact hcore.int_pos c pp0 l r w (by rw [hna, hnaeq])
      · obtain ⟨-, pp0, hmeq⟩ := setParent_eq_internal hm2.symm
        rw [hmeq] at hmm
        exact hcore.int_pos i pp0 l r w hmm
      · obtain ⟨-, pp0, hmeq⟩ := setParent_eq_internal hm2.symm
        rw [hmeq] at hmm
        exact hcore.int_pos i pp0 l r w hmm
      · exact hcore.int_pos i pp l r w hmm
    · intro sym i hsym
      by_cases hA : ∃ p w, na = .leaf p w sym
      · obtain ⟨p, w, hnaeq⟩ := hA
        rw [hS.sym_a p w sym hnaeq] at hsym
        obtain rfl : ld = i := Option.some.inj (Option.some.inj hsym)
        exact ⟨pb, w, by rw [hS.at_b, hnaeq]; rfl⟩
      · by_cases hB : ∃ p w, nb = .leaf p w sym
        · obtain ⟨p, w, hnbeq⟩ := hB
          rw [hS.sym_b p w sym hnbeq] at hsym
          obtain rfl : c = i := Option.some.inj (Option.some.inj hsym)
          exact ⟨pa, w, by rw [hS.at_a, hnbeq]; rfl⟩
        · push_neg at hA hB
          rw [hS.sym_other sym (fun p w => hA p w) (fun p w => hB p w)] at hsym
          obtain ⟨p, w, hleaf⟩ := hcore.sym_to_leaf sym i hsym
          rcases eq_or_ne i c with rfl | hic
          · rw [hna] at hleaf
            exact absurd (Option.some.inj hleaf) (hA p w)
          · rcases eq_or_ne i ld with rfl | hild
            · rw [hnb] at hleaf
              exact absurd (Option.some.inj hleaf) (hB p w)
            · by_cases hiA : ChildOf na i
              · exact ⟨ld, w, by rw [hS.at_ca i hiA, hleaf]; rfl⟩
              · by_cases hiB : ChildOf nb i
                · exact ⟨c, w, by rw [hS.at_cb i hiB, hleaf]; rfl⟩
                · exact ⟨p, w,
                    by rw [hS.at_other i hic hild hiA hiB]; exact hleaf⟩
    · intro i p w sym hleaf
      rcases hInv i _ hleaf with ⟨rfl, hm⟩ | ⟨rfl, hm⟩ |
        ⟨hic, hild, hiA, m, hmm, hm2⟩ | ⟨hic, hild, hiB, m, hmm, hm2⟩ |
        ⟨hic, hild, hiA, hiB, hmm⟩
      · obtain ⟨-, p0, hnbeq⟩ := setParent_eq_leaf hm.symm
        exact hS.sym_b p0 w sym hnbeq
      · obtain ⟨-, p0, hnaeq⟩ := setParent_eq_leaf hm.symm
        exact hS.sym_a p0 w sym hnaeq
      · obtain ⟨-, p0, hmeq⟩ := setParent_eq_leaf hm2.symm
        rw [hmeq] at hmm
        have hgot := hcore.leaf_to_sym i p0 w sym hmm
        have hAne : ∀ p2 w2, na ≠ .leaf p2 w2 sym := by
          obtain ⟨ppA, lA, rA, wA, hnaeq, -⟩ := hiA
          rw [hnaeq]
          intro p2 w2
          simp
        have hBne : ∀ p2 w2, nb ≠ .leaf p2 w2 sym := by
          intro p2 w2 hnbeq
          have h1 := hcore.leaf_to_sym ld p2 w2 sym (by rw [hnb, hnbeq])
          rw [hgot] at h1
          exact hild (Option.some.inj (Option.some.inj h1))
        rw [hS.sym_other sym hAne hBne]
        exact hgot
      · obtain ⟨-, p0, hmeq⟩ := setParent_eq_leaf hm2.symm
        rw [hmeq] at hmm
        have hgot := hcore.leaf_to_sym i p0 w sym hmm
        have hBne : ∀ p2 w2, nb ≠ .leaf p2 w2 sym := by
          obtain ⟨ppB, lB, rB, wB, hnbeq, -⟩ := hiB
          rw [hnbeq]
          intro p2 w2
          simp
        have hAne : ∀ p2 w2, na ≠ .leaf p2 w2 sym := by
          intro p2 w2 hnaeq
          have h1 := hcore.leaf_to_sym c p2 w2 sym (by rw [hna, hnaeq])
          rw [hgot] at h1
          exact hic (Option.some.inj (Option.some.inj h1))
        rw [hS.sym_other sym hAne hBne]
        exact hgot
      · have hgot := hcore.leaf_to_sym i p w sym hmm
        have hAne : ∀ p2 w2, na ≠ .leaf p2 w2 sym := by
          intro p2 w2 hnaeq
          have h1 := hcore.leaf_to_sym c p2 w2 sym (by rw [hna, hnaeq])
          rw [hgot] at h1
          exact hic (Option.some.inj (Option.some.inj h1))
        have hBne : ∀ p2 w2, nb ≠ .leaf p2 w2 sym := by
          intro p2 w2 hnbeq
          have h1 := hcore.leaf_to_sym ld p2 w2 sym (by rw [hnb, hnbeq])
          rw [hgot] at h1
          exact hild (Option.some.inj (Option.some.inj h1))
        rw [hS.sym_other sym hAne hBne]
        exact hgot
  have hsum2 : sumsExcept h2 (some ld) := by
    intro i pp l r w hint2
    rcases hInv i _ hint2 with ⟨rfl, hm⟩ | ⟨rfl, hm⟩ |
      ⟨hic, hild, hiA, m, hmm, hm2⟩ | ⟨hic, hild, hiB, m, hmm, hm2⟩ |
      ⟨hic, hild, hiA, hiB, hmm⟩
    · obtain ⟨-, pp0, hnbeq⟩ := setParent_eq_internal hm.symm
      have hsum := hs ld pp0 l r w (by rw [hnb, hnbeq])
      rw [if_neg (by simp; omega)] at hsum
      rw [if_neg (by simp; omega), hwAt l, hwAt r]
      exact hsum
    · obtain ⟨-, pp0, hnaeq⟩ := setParent_eq_internal hm.symm
      have hsum := hs c pp0 l r w (by rw [hna, hnaeq])
      rw [if_pos rfl] at hsum
      rw [if_pos rfl, hwAt l, hwAt r]
      exact hsum
    · obtain ⟨-, pp0, hmeq⟩ := setParent_eq_internal hm2.symm
      rw [hmeq] at hmm
      have hsum := hs i pp0 l r w hmm
      rw [if_neg (by simp; omega)] at hsum
      have hldi : ld ≠ i := by
        have := hnachild i hiA
        omega
      rw [if_neg (by simp; omega), hwAt l, hwAt r]
      exact hsum
    · obtain ⟨-, pp0, hmeq⟩ := setParent_eq_internal hm2.symm
      rw [hmeq] at hmm
      have hsum := hs i pp0 l r w hmm
      rw [if_neg (by simp; omega)] at hsum
      have hldi : ld ≠ i := by
        have := hnbchild i hiB
        omega
      rw [if_neg (by simp; omega), hwAt l, hwAt r]
      exact hsum
    · have hsum := hs i pp l r w hmm
      rw [if_neg (by simp; omega)] at hsum
      rw [if_neg (by simp; omega), hwAt l, hwAt r]
      exact hsum
  exact ⟨hwf2, hsum2, hwAt, hS.next_eq, hS.nyt_eq, nb, pb, hnb, hpb,
    hS.at_b, hnbNYT⟩

/-- Incrementing the weight of a slot that strictly outweighs everything
below it keeps the weights non-increasing. -/
theorem orderAll_increment {h2 h3 : Huffman} {c : Nat} (ho : orderAll h2)
    (hmin : ∀ y, y < c → wAt h2 c < wAt h2 y)
    (hnext : h3.next = h2.next) (hwo : ∀ i, i ≠ c → wAt h3 i = wAt h2 i)
    (hwc : wAt h3 c = wAt h2 c + 1) : orderAll h3 := by
  intro i j hij hjn
  rw [hnext] at hjn
  rcases eq_or_ne j c with rfl | hjc
  · rw [hwc, hwo i (by omega)]
    have := hmin i hij
    omega
  · rw [hwo j hjc]
    rcases eq_or_ne i c with rfl | hic
    · rw [hwc]
      have := ho i j hij hjn
      omega
    · rw [hwo i hic]
      exact ho i j hij hjn

theorem setParent_not_nyt {n : Node} (hn : ∀ q, n ≠ .notYetTransmitted q)
    (y : Nat) : ∀ q, n.setParent y ≠ .notYetTransmitted q := by
  intro q heq
  obtain ⟨q0, hq0⟩ := setParent_eq_nyt heq
  exact hn q0 hq0

/-- The promotion loop preserves the loop invariant and, on normal return,
establishes full well-formedness. -/
theorem insertLoop_WF : ∀ (fuel : Nat) (h : Huffman) (cur : Option Nat)
    (h' : Huffman), LoopInv h cur → h.insertLoop cur fuel = some h' →
    WF h' := by
  intro fuel
  induction fuel with
  | zero =>
    intro h cur h' hinv hrun
    cases cur with
    | none =>
      obtain rfl : h = h' := by simpa [Huffman.insertLoop] using hrun
      exact hinv
    | some c => exact absurd hrun (by simp [Huffman.insertLoop])
  | succ fuel ih =>
    intro h cur h' hinv hrun
    cases cur with
    | none =>
      obtain rfl : h = h' := by simpa [Huffman.insertLoop] using hrun
      exact hinv
    | some c =>
      obtain ⟨hcore, hs, hcur, hmode⟩ := hinv
      obtain ⟨hclt, nZ, hnZ, hnNYT⟩ := hcur c rfl
      simp only [Huffman.insertLoop, bind, Option.bind_eq_some] at hrun
      obtain ⟨ld, hld, n, hn, hif⟩ := hrun
      obtain rfl : n = nZ := by
        rw [hnZ] at hn
        exact (Option.some.inj hn).symm
      rcases hmode with ⟨ho, hA3⟩ | hB
      · obtain ⟨hldle, hwEq, hmin⟩ := block_leader_spec hld ho hclt
        by_cases hcond : ld ≠ c ∧ some ld ≠ n.parent
        · rw [if_pos hcond] at hif
          simp only [bind, Option.bind_eq_some] at hif
          obtain ⟨h2, hsw, x, hxeq, hrest⟩ := hif
          obtain rfl : (h2, ld) = x := Option.some.inj hxeq
          simp only [bind, Option.bind_eq_some] at hrest
          obtain ⟨h3, hmod, n3, hn3, hrec⟩ := hrest
          have hldlt : ld < c := lt_of_le_of_ne hldle hcond.1
          have hA3c : c + 3 ≠ h.next := hA3 c rfl
          obtain ⟨hwf2, hsum2, hwAt2, hnext2, hnyt2, nb, pb, hnb, hpb,
            hrefld, hnbNYT⟩ :=
            swap_preserves hcore hs ho hclt hn hnNYT hldlt hwEq
              (Ne.symm hcond.2) hA3c hsw
          obtain ⟨nB, hnB, hwf3, hsum3, hnext3, hnyt3, hwo3, hwc3, hparc3,
            hpop3, n2, hn2, hn2par⟩ := increment_after hwf2 hsum2 hmod
          obtain rfl : nB = n.setParent pb := by
            rw [hrefld] at hnB
            exact (Option.some.inj hnB).symm
          obtain rfl : n3 = n2 := by
            rw [hn2] at hn3
            exact (Option.some.inj hn3).symm
          have hn3par : n3.parent = some pb := by
            rw [hn2par, Node.parent_setParent]
          rw [hn3par] at hrec
          have ho2 : orderAll h2 := by
            intro i j hij hjn
            rw [hwAt2 i, hwAt2 j]
            rw [hnext2] at hjn
            exact ho i j hij hjn
          have hmin2 : ∀ y, y < ld → wAt h2 ld < wAt h2 y := by
            intro y hy
            rw [hwAt2 ld, hwAt2 y, hwEq]
            exact hmin y hy
          have ho3 : orderAll h3 :=
            orderAll_increment ho2 hmin2 hnext3 hwo3 hwc3
          have hcnyt : c ≠ h.nyt := by
            intro heq
            obtain ⟨q, hq⟩ := hcore.nyt_is
            rw [heq, hq] at hn
            exact hnNYT q (Option.some.inj hn).symm
          have hpbfar : pb + 3 ≠ h3.next := by
            rw [hnext3, hnext2]
            intro hadj
            obtain ⟨hld2, -⟩ := parent_adj_top hwf2 hrefld
              (Node.parent_setParent n pb)
              (by rw [hnext2]; exact hadj) (setParent_not_nyt hnNYT pb)
            rw [hnext2] at hld2
            have := hcore.nyt_eq
            omega
          refine ih h3 (some pb) h' ⟨hwf3, ?_, ?_, Or.inl ⟨ho3, ?_⟩⟩ hrec
          · rw [Node.parent_setParent] at hsum3
            exact hsum3
          · intro c' hc'
            obtain rfl : pb = c' := Option.some.inj hc'
            exact hpop3 pb (Node.parent_setParent n pb)
          · intro c' hc'
            obtain rfl : pb = c' := Option.some.inj hc'
            exact hpbfar
        · rw [if_neg hcond] at hif
          simp only [bind, Option.bind_eq_some] at hif
          obtain ⟨x, hxeq, hrest⟩ := hif
          obtain rfl : (h, c) = x := Option.some.inj hxeq
          simp only [bind, Option.bind_eq_some] at hrest
          obtain ⟨h3, hmod, n3, hn3, hrec⟩ := hrest
          obtain ⟨nA, hnA, hwf3, hsum3, hnext3, hnyt3, hwo3, hwc3, hparc3,
            hpop3, n2, hn2, hn2par⟩ := increment_after hcore hs hmod
          obtain rfl : n = nA := by
            rw [hn] at hnA
            exact Option.some.inj hnA
          obtain rfl : n3 = n2 := by
            rw [hn2] at hn3
            exact (Option.some.inj hn3).symm
          rw [hn2par] at hrec
          by_cases hldc : ld = c
          · subst hldc
            have hminc : ∀ y, y < ld → wAt h ld < wAt h y := hmin
            have ho3 : orderAll h3 :=
              orderAll_increment ho hminc hnext3 hwo3 hwc3
            have hfar := leader_self_parent_far hcore hs hminc hn hnNYT
            refine ih h3 n.parent h' ⟨hwf3, hsum3, hpop3,
              Or.inl ⟨ho3, ?_⟩⟩ hrec
            intro c' hc'
            rw [hnext3]
            exact hfar c' hc'
          · have hpar_eq : some ld = n.parent := by
              by_contra hne
              exact hcond ⟨hldc, hne⟩
            have hldlt : ld < c := lt_of_le_of_ne hldle hldc
            obtain ⟨hc2, hld3⟩ := guard_shape hcore hs hn hpar_eq.symm hwEq
            rw [← hpar_eq] at hrec hsum3
            refine ih h3 (some ld) h' ⟨hwf3, hsum3, ?_, Or.inr ?_⟩ hrec
            · intro c' hc'
              obtain rfl : ld = c' := Option.some.inj hc'
              exact hpop3 ld hpar_eq.symm
            · refine ⟨ld, rfl, by rw [hnext3]; exact hld3, ?_, ?_, ?_⟩
              · have hldc1 : ld + 1 = c := by omega
                rw [hldc1, hwc3, hwo3 ld (by omega), hwEq]
              · intro y hy
                rw [hwo3 y (by omega), hwo3 ld (by omega), hwEq]
                exact hmin y hy
              · intro i j hij hjn hjne
                rw [hnext3] at hjn
                have hjc : j ≠ c := by omega
                rw [hwo3 j hjc]
                rcases eq_or_ne i c with rfl | hic
                · rw [hwc3]
                  have := ho i j hij hjn
                  omega
                · rw [hwo3 i hic]
                  exact ho i j hij hjn
      · obtain ⟨cB, hcB, hc3, hwplus, hstrict, hordB⟩ := hB
        obtain rfl : c = cB := Option.some.inj hcB
        have hldc : ld = c := block_leader_self hld hstrict
        subst hldc
        rw [if_neg (by simp)] at hif
        simp only [bind, Option.bind_eq_some] at hif
        obtain ⟨x, hxeq, hrest⟩ := hif
        obtain rfl : (h, ld) = x := Option.some.inj hxeq
        simp only [bind, Option.bind_eq_some] at hrest
        obtain ⟨h3, hmod, n3, hn3, hrec⟩ := hrest
        obtain ⟨nA, hnA, hwf3, hsum3, hnext3, hnyt3, hwo3, hwc3, hparc3,
          hpop3, n2, hn2, hn2par⟩ := increment_after hcore hs hmod
        obtain rfl : n = nA := by
          rw [hn] at hnA
          exact Option.some.inj hnA
        obtain rfl : n3 = n2 := by
          rw [hn2] at hn3
          exact (Option.some.inj hn3).symm
        rw [hn2par] at hrec
        have ho3 : orderAll h3 := by
          intro i j hij hjn
          rw [hnext3] at hjn
          rcases eq_or_ne j ld with rfl | hjc
          · rw [hwc3, hwo3 i (by omega)]
            have := hstrict i hij
            omega
          · rw [hwo3 j hjc]
            rcases eq_or_ne j (ld + 1) with rfl | hjc1
            · rcases eq_or_ne i ld with rfl | hic
              · rw [hwc3]
                omega
              · rw [hwo3 i hic]
                have := hstrict i (by omega)
                omega
            · rcases eq_or_ne i ld with rfl | hic
              · rw [hwc3]
                have := hordB i j hij hjn hjc1
                omega
              · rw [hwo3 i hic]
                exact hordB i j hij hjn hjc1
        refine ih h3 n.parent h' ⟨hwf3, hsum3, hpop3,
          Or.inl ⟨ho3, ?_⟩⟩ hrec
        intro c' hc'
        have := hparc3 c' hc'
        rw [hnext3]
        omega


/-- The fresh-symbol branch of `insert`: splitting the NYT leaf into a new
internal/leaf/NYT triple at the top of the arena establishes the loop
invariant at the old NYT's parent. -/
theorem insert_fresh_WF {h h' : Huffman} {symbol : Nat}
    (hcore : WFcore h) (hsums : sumsExcept h none) (horder : orderAll h)
    {qn : Option Nat} (hq : h.nodeRef h.nyt = some (.notYetTransmitted qn))
    (hsymlt : symbol < h.symbol_index.length)
    (hsi : h.symbol_index.get? symbol = some none)
    (hb : h.next + 1 < h.tree.length)
    (hloop : Huffman.insertLoop
      { tree := ((h.tree.set h.nyt
            (some (.internal qn (h.next + 1) h.next 1))).set
          h.next (some (.leaf h.nyt 1 symbol))).set (h.next + 1)
          (some (.notYetTransmitted (some h.nyt))),
        symbol_index := h.symbol_index.set symbol (some h.next),
        nyt := h.next + 1, next := h.next + 2 } qn MAX_NODES = some h') :
    WF h' := by
  have hnyteq := hcore.nyt_eq
  set ni : Node := .internal qn (h.next + 1) h.next 1 with hni_def
  set nl : Node := .leaf h.nyt 1 symbol with hnl_def
  set nn : Node := .notYetTransmitted (some h.nyt) with hnn_def
  set hF : Huffman :=
    { tree := ((h.tree.set h.nyt (some ni)).set h.next (some nl)).set
        (h.next + 1) (some nn),
      symbol_index := h.symbol_index.set symbol (some h.next),
      nyt := h.next + 1, next := h.next + 2 } with hF_def
  have hFnext : hF.next = h.next + 2 := rfl
  have hFnyt : hF.nyt = h.next + 1 := rfl
  have hrefF : ∀ i, hF.nodeRef i =
      if i = h.next + 1 then some nn
      else if i = h.next then some nl
      else if i = h.nyt then some ni
      else h.nodeRef i := by
    intro i
    show ((((h.tree.set h.nyt (some ni)).set h.next (some nl)).set
      (h.next + 1) (some nn)).get? i).bind id = _
    rcases eq_or_ne i (h.next + 1) with rfl | h1
    · rw [List.get?_eq_getElem?, List.getElem?_set_eq (by simpa using hb),
        if_pos rfl]
      rfl
    · rw [List.get?_set_ne _ _ (Ne.symm h1), if_neg h1]
      rcases eq_or_ne i h.next with rfl | h2
      · rw [List.get?_eq_getElem?,
          List.getElem?_set_eq (by simp; omega), if_pos rfl]
        rfl
      · rw [List.get?_set_ne _ _ (Ne.symm h2), if_neg h2]
        rcases eq_or_ne i h.nyt with rfl | h3
        · rw [List.get?_eq_getElem?,
            List.getElem?_set_eq (by omega), if_pos rfl]
          rfl
        · rw [List.get?_set_ne _ _ (Ne.symm h3), if_neg h3]
          rfl
  have hsymF : ∀ s, hF.symbol_index.get? s =
      if s = symbol then some (some h.next) else h.symbol_index.get? s := by
    intro s
    show (h.symbol_index.set symbol (some h.next)).get? s = _
    rcases eq_or_ne s symbol with rfl | hne
    · rw [List.get?_eq_getElem?, List.getElem?_set_eq (by simpa using hsymlt),
        if_pos rfl]
    · rw [List.get?_set_ne _ _ (Ne.symm hne), if_neg hne]
  have hwF : ∀ i, wAt hF i =
      if i = h.next + 1 then 0 else if i = h.next then 1
      else if i = h.nyt then 1 else wAt h i := by
    intro i
    unfold wAt
    rw [hrefF i]
    rcases eq_or_ne i (h.next + 1) with rfl | h1
    · rw [if_pos rfl, if_pos rfl]
      rfl
    · rw [if_neg h1, if_neg h1]
      rcases eq_or_ne i h.next with rfl | h2
      · rw [if_pos rfl, if_pos rfl]
        rfl
      · rw [if_neg h2, if_neg h2]
        rcases eq_or_ne i h.nyt with rfl | h3
        · rw [if_pos rfl, if_pos rfl]
          rfl
        · rw [if_neg h3, if_neg h3]
  have hw1 : ∀ i, i < h.nyt → 1 ≤ wAt h i := by
    intro i hi
    obtain ⟨m, hm⟩ := hcore.pop_lt i (by omega)
    refine wAt_pos hcore hm ?_
    intro q2 heq
    rw [heq] at hm
    have := hcore.nyt_unique i q2 hm
    omega
  have hqn : ∀ p, qn = some p → p + 3 = h.next ∧ p < h.nyt ∧
      ∃ pp l r w, h.nodeRef p = some (.internal pp l r w) ∧
        (h.nyt = l ∨ h.nyt = r) := by
    intro p hp
    have hnyt0 : h.nyt ≠ 0 := by
      intro h0
      have hroot := hcore.root_par _ (h0 ▸ hq)
      have : qn = none := hroot
      rw [hp] at this
      exact absurd this (by simp)
    obtain ⟨q', hq', hq'lt, pp, l, r, w, hint, hor⟩ :=
      hcore.par_exists h.nyt _ hq hnyt0
    have hqq : qn = some q' := hq'
    obtain rfl : p = q' := by
      rw [hp] at hqq
      exact Option.some.inj hqq
    have hadj := hcore.nyt_par_adj p (by rw [hq, hqq])
    exact ⟨hadj, by omega, pp, l, r, w, hint, hor⟩
  have hbacknyt : ∀ i pp l r w, h.nodeRef i = some (.internal pp l r w) →
      (h.nyt = l ∨ h.nyt = r) → qn = some i := by
    intro i pp l r w hint hor
    obtain ⟨-, -, -, ⟨nl2, hnl2, hnl2p⟩, ⟨nr2, hnr2, hnr2p⟩⟩ :=
      hcore.child_link i pp l r w hint
    rcases hor with heq | heq
    · rw [← heq, hq] at hnl2
      obtain rfl : Node.notYetTransmitted qn = nl2 := Option.some.inj hnl2
      exact hnl2p
    · rw [← heq, hq] at hnr2
      obtain rfl : Node.notYetTransmitted qn = nr2 := Option.some.inj hnr2
      exact hnr2p
  have hpopself : ∀ i, i < h.next → i ≠ h.nyt →
      ∃ m, h.nodeRef i = some m ∧ ∀ q2, m ≠ .notYetTransmitted q2 := by
    intro i hi hne
    obtain ⟨m, hm⟩ := hcore.pop_lt i hi
    refine ⟨m, hm, ?_⟩
    intro q2 heq
    rw [heq] at hm
    exact hne (hcore.nyt_unique i q2 hm)
  have hcoreF : WFcore hF := by
    refine ⟨?_, ?_, ?_, ?_, ?_, ?_, ?_, ?_, ?_, ?_, ?_, ?_, ?_, ?_, ?_, ?_⟩
    · show (((h.tree.set _ _).set _ _).set _ _).length = MAX_NODES
      simpa using hcore.tree_len
    · show (h.symbol_index.set symbol (some h.next)).length = MAX_SYMBOLS
      simpa using hcore.sym_len
    · show h.next + 2 ≤ MAX_NODES
      have := hcore.tree_len
      omega
    · show h.next + 1 + 1 = h.next + 2
      omega
    · intro i hi
      rw [hFnext] at hi
      rw [hrefF i]
      rcases eq_or_ne i (h.next + 1) with rfl | h1
      · rw [if_pos rfl]
        exact ⟨nn, rfl⟩
      · rw [if_neg h1]
        rcases eq_or_ne i h.next with rfl | h2
        · rw [if_pos rfl]
          exact ⟨nl, rfl⟩
        · rw [if_neg h2]
          rcases eq_or_ne i h.nyt with rfl | h3
          · rw [if_pos rfl]
            exact ⟨ni, rfl⟩
          · rw [if_neg h3]
            refine hcore.pop_lt i ?_
            show i < h.next
            omega
    · intro i hi
      rw [hFnext] at hi
      rw [hrefF i, if_neg (by omega), if_neg (by omega), if_neg (by omega)]
      refine hcore.pop_ge i ?_
      show h.next ≤ i
      omega
    · refine ⟨some h.nyt, ?_⟩
      rw [hrefF (h.next + 1), if_pos rfl]
    · intro i p hi
      rw [hrefF i] at hi
      rcases eq_or_ne i (h.next + 1) with rfl | h1
      · rfl
      · rw [if_neg h1] at hi
        rcases eq_or_ne i h.next with rfl | h2
        · rw [if_pos rfl] at hi
          exact absurd (Option.some.inj hi).symm (by simp [hnl_def])
        · rw [if_neg h2] at hi
          rcases eq_or_ne i h.nyt with rfl | h3
          · rw [if_pos rfl] at hi
            exact absurd (Option.some.inj hi).symm (by simp [hni_def])
          · rw [if_neg h3] at hi
            have := hcore.nyt_unique i p hi
            omega
    · intro nd hnd
      rw [hrefF 0, if_neg (by omega), if_neg (by omega)] at hnd
      rcases eq_or_ne (0 : Nat) h.nyt with h0 | h0
      · rw [if_pos h0] at hnd
        obtain rfl : ni = nd := Option.some.inj hnd
        have hroot := hcore.root_par _ (h0 ▸ hq)
        exact hroot
      · rw [if_neg h0] at hnd
        exact hcore.root_par nd hnd
    · intro i nd hnd hne0
      rw [hrefF i] at hnd
      rcases eq_or_ne i (h.next + 1) with rfl | h1
      · rw [if_pos rfl] at hnd
        obtain rfl : nn = nd := Option.some.inj hnd
        refine ⟨h.nyt, rfl, by omega, qn, h.next + 1, h.next, 1, ?_, Or.inl rfl⟩
        rw [hrefF h.nyt, if_neg (by omega), if_neg (by omega), if_pos rfl]
      · rw [if_neg h1] at hnd
        rcases eq_or_ne i h.next with rfl | h2
        · rw [if_pos rfl] at hnd
          obtain rfl : nl = nd := Option.some.inj hnd
          refine ⟨h.nyt, rfl, by omega, qn, h.next + 1, h.next, 1, ?_, Or.inr rfl⟩
          rw [hrefF h.nyt, if_neg (by omega), if_neg (by omega), if_pos rfl]
        · rw [if_neg h2] at hnd
          rcases eq_or_ne i h.nyt with rfl | h3
          · rw [if_pos rfl] at hnd
            obtain rfl : ni = nd := Option.some.inj hnd
            have hnyt0 : h.nyt ≠ 0 := hne0
            obtain ⟨q', hq', hq'lt, pp, l, r, w, hint, hor⟩ :=
              hcore.par_exists h.nyt _ hq hnyt0
            have hqq : qn = some q' := hq'
            refine ⟨q', by show qn = some q'; exact hqq, hq'lt,
              pp, l, r, w, ?_, hor⟩
            rw [hrefF q', if_neg (by omega), if_neg (by omega),
              if_neg (by omega)]
            exact hint
          · rw [if_neg h3] at hnd
            obtain ⟨p, hp, hplt, pp, l, r, w, hint, hor⟩ :=
              hcore.par_exists i nd hnd hne0
            have hiLow : i < h.next := by
              by_contra hge
              rw [hcore.pop_ge i (by omega)] at hnd
              exact absurd hnd (by simp)
            refine ⟨p, hp, hplt, pp, l, r, w, ?_, hor⟩
            rw [hrefF p, if_neg (by omega), if_neg (by omega),
              if_neg (by omega)]
            exact hint
    · intro i pp l r w hint
      rw [hrefF i] at hint
      rcases eq_or_ne i (h.next + 1) with rfl | h1
      · rw [if_pos rfl] at hint
        exact absurd (Option.some.inj hint).symm (by simp [hnn_def])
      · rw [if_neg h1] at hint
        rcases eq_or_ne i h.next with rfl | h2
        · rw [if_pos rfl] at hint
          exact absurd (Option.some.inj hint).symm (by simp [hnl_def])
        · rw [if_neg h2] at hint
          rcases eq_or_ne i h.nyt with rfl | h3
          · rw [if_pos rfl] at hint
            have hni : ni = Node.internal pp l r w := Option.some.inj hint
            obtain ⟨rfl, rfl, rfl, rfl⟩ : qn = pp ∧ h.next + 1 = l ∧
                h.next = r ∧ 1 = w := by
              rw [hni_def] at hni
              injection hni with e1 e2 e3 e4
              exact ⟨e1, e2, e3, e4⟩
            refine ⟨rfl, by omega, by show h.next + 1 < h.next + 2; omega,
              ?_, ?_⟩
            · refine ⟨nn, ?_, rfl⟩
              rw [hrefF (h.next + 1), if_pos rfl]
            · refine ⟨nl, ?_, rfl⟩
              rw [hrefF h.next, if_neg (by omega), if_pos rfl]
          · rw [if_neg h3] at hint
            obtain ⟨hlr, hir, hln, ⟨nl2, hnl2, hnl2p⟩, ⟨nr2, hnr2, hnr2p⟩⟩ :=
              hcore.child_link i pp l r w hint
            have hiLow : i < h.next := by
              by_contra hge
              rw [hcore.pop_ge i (by omega)] at hint
              exact absurd hint (by simp)
            refine ⟨hlr, hir, by show l < h.next + 2; omega, ?_, ?_⟩
            · rcases eq_or_ne l h.nyt with rfl | hlnyt
              · refine ⟨ni, ?_, ?_⟩
                · rw [hrefF h.nyt, if_neg (by omega), if_neg (by omega),
                    if_pos rfl]
                · show qn = some i
                  rw [hq] at hnl2
                  obtain rfl : Node.notYetTransmitted qn = nl2 :=
                    Option.some.inj hnl2
                  exact hnl2p
              · refine ⟨nl2, ?_, hnl2p⟩
                rw [hrefF l, if_neg (by omega), if_neg (by omega),
                  if_neg hlnyt]
                exact hnl2
            · rcases eq_or_ne r h.nyt with rfl | hrnyt
              · refine ⟨ni, ?_, ?_⟩
                · rw [hrefF h.nyt, if_neg (by omega), if_neg (by omega),
                    if_pos rfl]
                · show qn = some i
                  rw [hq] at hnr2
                  obtain rfl : Node.notYetTransmitted qn = nr2 :=
                    Option.some.inj hnr2
                  exact hnr2p
              · refine ⟨nr2, ?_, hnr2p⟩
                rw [hrefF r, if_neg (by omega), if_neg (by omega),
                  if_neg hrnyt]
                exact hnr2
    · intro p hp
      rw [show hF.nyt = h.next + 1 from rfl, hrefF (h.next + 1),
        if_pos rfl] at hp
      obtain heq : some h.nyt = some p := by
        injection hp with e
        rw [hnn_def] at e
        injection e.symm with e2
        exact e2.symm
      obtain rfl : h.nyt = p := Option.some.inj heq
      show h.nyt + 3 = h.next + 2
      omega
    · intro i p w sym hleaf
      rw [hrefF i] at hleaf
      rcases eq_or_ne i (h.next + 1) with rfl | h1
      · rw [if_pos rfl] at hleaf
        exact absurd (Option.some.inj hleaf).symm (by simp [hnn_def])
      · rw [if_neg h1] at hleaf
        rcases eq_or_ne i h.next with rfl | h2
        · rw [if_pos rfl] at hleaf
          obtain heq : nl = Node.leaf p w sym := Option.some.inj hleaf
          rw [hnl_def] at heq
          injection heq with e1 e2 e3
          omega
        · rw [if_neg h2] at hleaf
          rcases eq_or_ne i h.nyt with rfl | h3
          · rw [if_pos rfl] at hleaf
            exact absurd (Option.some.inj hleaf).symm (by simp [hni_def])
          · rw [if_neg h3] at hleaf
            exact hcore.leaf_pos i p w sym hleaf
    · intro i pp l r w hint
      rw [hrefF i] at hint
      rcases eq_or_ne i (h.next + 1) with rfl | h1
      · rw [if_pos rfl] at hint
        exact absurd (Option.some.inj hint).symm (by simp [hnn_def])
      · rw [if_neg h1] at hint
        rcases eq_or_ne i h.next with rfl | h2
        · rw [if_pos rfl] at hint
          exact absurd (Option.some.inj hint).symm (by simp [hnl_def])
        · rw [if_neg h2] at hint
          rcases eq_or_ne i h.nyt with rfl | h3
          · rw [if_pos rfl] at hint
            obtain heq : ni = Node.internal pp l r w := Option.some.inj hint
            rw [hni_def] at heq
            injection heq with e1 e2 e3 e4
            omega
          · rw [if_neg h3] at hint
            exact hcore.int_pos i pp l r w hint
    · intro sym i hsym
      rw [hsymF sym] at hsym
      rcases eq_or_ne sym symbol with rfl | hne
      · rw [if_pos rfl] at hsym
        obtain rfl : h.next = i := Option.some.inj (Option.some.inj hsym)
        refine ⟨h.nyt, 1, ?_⟩
        rw [hrefF h.next, if_neg (by omega), if_pos rfl]
      · rw [if_neg hne] at hsym
        obtain ⟨p, w, hleaf⟩ := hcore.sym_to_leaf sym i hsym
        have hiLow : i < h.next := by
          by_contra hge
          rw [hcore.pop_ge i (by omega)] at hleaf
          exact absurd hleaf (by simp)
        have hinyt : i ≠ h.nyt := by
          intro heq
          rw [heq, hq] at hleaf
          exact absurd (Option.some.inj hleaf) (by simp)
        refine ⟨p, w, ?_⟩
        rw [hrefF i, if_neg (by omega), if_neg (by omega), if_neg hinyt]
        exact hleaf
    · intro i p w sym hleaf
      rw [hrefF i] at hleaf
      rw [hsymF sym]
      rcases eq_or_ne i (h.next + 1) with rfl | h1
      · rw [if_pos rfl] at hleaf
        exact absurd (Option.some.inj hleaf).symm (by simp [hnn_def])
      · rw [if_neg h1] at hleaf
        rcases eq_or_ne i h.next with rfl | h2
        · rw [if_pos rfl] at hleaf
          obtain heq : nl = Node.leaf p w sym := Option.some.inj hleaf
          rw [hnl_def] at heq
          injection heq with e1 e2 e3
          rw [if_pos e3.symm]
        · rw [if_neg h2] at hleaf
          rcases eq_or_ne i h.nyt with rfl | h3
          · rw [if_pos rfl] at hleaf
            exact absurd (Option.some.inj hleaf).symm (by simp [hni_def])
          · rw [if_neg h3] at hleaf
            have hgot := hcore.leaf_to_sym i p w sym hleaf
            have hne : sym ≠ symbol := by
              intro heq
              rw [heq, hsi] at hgot
              exact absurd (Option.some.inj hgot) (by simp)
            rw [if_neg hne]
            exact hgot
  have hsumsF : sumsExcept hF qn := by
    intro i pp l r w hint
    rw [hrefF i] at hint
    rcases eq_or_ne i (h.next + 1) with rfl | h1
    · rw [if_pos rfl] at hint
      exact absurd (Option.some.inj hint).symm (by simp [hnn_def])
    · rw [if_neg h1] at hint
      rcases eq_or_ne i h.next with rfl | h2
      · rw [if_pos rfl] at hint
        exact absurd (Option.some.inj hint).symm (by simp [hnl_def])
      · rw [if_neg h2] at hint
        rcases eq_or_ne i h.nyt with rfl | h3
        · rw [if_pos rfl] at hint
          obtain heq : ni = Node.internal pp l r w := Option.some.inj hint
          rw [hni_def] at heq
          injection heq with e1 e2 e3 e4
          have hcond : qn ≠ some h.nyt := by
            intro hqeq
            obtain ⟨hadj, hlt, -⟩ := hqn h.nyt hqeq
            omega
          rw [if_neg hcond, ← e2, ← e3, ← e4,
            hwF (h.next + 1), if_pos rfl,
            hwF h.next, if_neg (by omega), if_pos rfl]
        · rw [if_neg h3] at hint
          have hiLow : i < h.next := by
            by_contra hge
            rw [hcore.pop_ge i (by omega)] at hint
            exact absurd hint (by simp)
          have hsum := hsums i pp l r w hint
          rw [if_neg (by simp)] at hsum
          obtain ⟨hlr, hir, hln, -, -⟩ := hcore.child_link i pp l r w hint
          by_cases hchild : h.nyt = l ∨ h.nyt = r
          · have hqi : qn = some i := hbacknyt i pp l r w hint hchild
            rw [if_pos hqi]
            rcases hchild with heq | heq
            · rw [hwF l, if_neg (by omega), if_neg (by omega),
                if_pos heq.symm,
                hwF r, if_neg (by omega), if_neg (by omega),
                if_neg (by omega)]
              have hwl : wAt h l = 0 := by
                rw [← heq]
                exact wAt_nyt_zero hcore
              omega
            · rw [hwF l, if_neg (by omega), if_neg (by omega),
                if_neg (by omega),
                hwF r, if_neg (by omega), if_neg (by omega),
                if_pos heq.symm]
              have hwr : wAt h r = 0 := by
                rw [← heq]
                exact wAt_nyt_zero hcore
              omega
          · push_neg at hchild
            have hcond : qn ≠ some i := by
              intro hqeq
              obtain ⟨-, -, pp2, l2, r2, w2, hint2, hor2⟩ := hqn i hqeq
              rw [hint] at hint2
              obtain heq2 : Node.internal pp l r w =
                  Node.internal pp2 l2 r2 w2 := Option.some.inj hint2
              injection heq2 with e1 e2 e3 e4
              rcases hor2 with horl | horr
              · exact hchild.1 (by omega)
              · exact hchild.2 (by omega)
            rw [if_neg hcond,
              hwF l, if_neg (by omega), if_neg (by omega),
              if_neg (Ne.symm hchild.1),
              hwF r, if_neg (by omega), if_neg (by omega),
              if_neg (Ne.symm hchild.2)]
            exact hsum
  have hordF : orderAll hF := by
    intro i j hij hjn
    have hjn2 : j < h.next + 2 := hjn
    rw [hwF i, hwF j]
    rcases eq_or_ne j (h.next + 1) with rfl | hj1
    · rw [if_pos rfl]
      omega
    · rw [if_neg hj1]
      rcases eq_or_ne j h.next with rfl | hj2
      · rw [if_pos rfl, if_neg (by omega)]
        rcases eq_or_ne i h.nyt with rfl | hi3
        · rw [if_neg (by omega), if_pos rfl]
        · rw [if_neg (by omega), if_neg hi3]
          have := hw1 i (by omega)
          omega
      · rw [if_neg hj2]
        rcases eq_or_ne j h.nyt with rfl | hj3
        · rw [if_pos rfl, if_neg (by omega), if_neg (by omega),
            if_neg (by omega)]
          have := hw1 i (by omega)
          omega
        · rw [if_neg hj3, if_neg (by omega), if_neg (by omega),
            if_neg (by omega)]
          exact horder i j hij (by omega)
  refine insertLoop_WF MAX_NODES hF qn h' ⟨hcoreF, hsumsF, ?_, Or.inl ⟨hordF, ?_⟩⟩ hloop
  · intro c hc
    obtain ⟨hadj, hlt, pp, l, r, w, hint, -⟩ := hqn c hc
    refine ⟨by show c < h.next + 2; omega, Node.internal pp l r w, ?_, by simp⟩
    rw [hrefF c, if_neg (by omega), if_neg (by omega), if_neg (by omega)]
    exact hint
  · intro c hc
    obtain ⟨hadj, -, -⟩ := hqn c hc
    show c + 3 ≠ h.next + 2
    omega

/-- A successful `insert` from a well-formed state leaves a well-formed
state. -/
theorem insert_WF {h h' : Huffman} {symbol : Nat} (hwf : WF h)
    (hins : h.insert symbol = some h') : WF h' := by
  obtain ⟨hcore, hsums, horder⟩ := (WF_def h).mp hwf
  obtain ⟨qn, hq⟩ := hcore.nyt_is
  have hnyteq := hcore.nyt_eq
  simp only [Huffman.insert, bind, Option.bind_eq_some] at hins
  obtain ⟨si, hsi, hrest⟩ := hins
  cases si with
  | some idx =>
    -- the symbol already has a leaf: enter the loop at the leaf
    obtain ⟨p0, w0, hleaf⟩ := hcore.sym_to_leaf symbol idx hsi
    have hidxlt : idx < h.next := by
      by_contra hge
      rw [hcore.pop_ge idx (by omega)] at hleaf
      exact absurd hleaf (by simp)
    refine insertLoop_WF MAX_NODES h (some idx) h' ⟨hcore, ?_, ?_, Or.inl ⟨horder, ?_⟩⟩ hrest
    · intro i pp l r w hint
      rcases eq_or_ne idx i with rfl | hne
      · rw [hleaf] at hint
        exact absurd (Option.some.inj hint) (by simp)
      · rw [if_neg (by simpa using hne)]
        have hsum := hsums i pp l r w hint
        rw [if_neg (by simp)] at hsum
        exact hsum
    · intro c hc
      obtain rfl : idx = c := Option.some.inj hc
      exact ⟨hidxlt, Node.leaf p0 w0 symbol, hleaf, by simp⟩
    · intro c hc hadj
      obtain rfl : idx = c := Option.some.inj hc
      have hnyt0 : h.nyt ≠ 0 := by omega
      obtain ⟨q', hq', hq'lt, pp, l, r, w, hint, hor⟩ :=
        hcore.par_exists h.nyt _ hq hnyt0
      have hadj2 : q' + 3 = h.next :=
        hcore.nyt_par_adj q' (by rw [hq, show qn = some q' from hq'])
      obtain rfl : idx = q' := by omega
      rw [hleaf] at hint
      exact absurd (Option.some.inj hint) (by simp)
  | none =>
    simp only [bind, Option.bind_eq_some] at hrest
    obtain ⟨nytNode, hnytNode, s1, hs1, s2, hs2, s3, hs3, s4, hs4, hloop⟩ := hrest
    obtain rfl : Node.notYetTransmitted qn = nytNode := by
      rw [show Huffman.nodeRef { h with next := h.next + 2 } h.nyt =
        h.nodeRef h.nyt from rfl, hq] at hnytNode
      exact Option.some.inj hnytNode
    obtain ⟨hsymlt, rfl⟩ := symbolIndexSet_eq_some.mp hs1
    obtain ⟨hb1, rfl⟩ := treeSet_eq_some.mp hs2
    obtain ⟨hb2, rfl⟩ := treeSet_eq_some.mp hs3
    obtain ⟨hb3, rfl⟩ := treeSet_eq_some.mp hs4
    have hb3' : h.next + 1 < h.tree.length := by simpa using hb3
    exact insert_fresh_WF hcore hsums horder hq hsymlt hsi hb3' hloop

/-- Any successful run of `insertSeq` from a well-formed state stays
well-formed. -/
theorem insertSeq_WF : ∀ (syms : List Nat) (h h' : Huffman), WF h →
    h.insertSeq syms = some h' → WF h' := by
  intro syms
  induction syms with
  | nil =>
    intro h h' hwf hrun
    obtain rfl : h = h' := by simpa [Huffman.insertSeq] using hrun
    exact hwf
  | cons s rest ih =>
    intro h h' hwf hrun
    simp only [Huffman.insertSeq, bind, Option.bind_eq_some] at hrun
    obtain ⟨h1, hins, hrest⟩ := hrun
    exact ih h1 h' (insert_WF hwf hins) hrest

/-- C4: after every `insert` call (any symbol sequence from the initial
adaptive state), the arena weights are non-increasing: for populated slots
`i < j`, the node at `j` never outweighs the node at `i` (the sibling
property's ordering half). -/
theorem c4_insert_sibling_property (syms : List Nat) (h' : Huffman)
    (hrun : Huffman.adaptive.insertSeq syms = some h')
    (i j : Nat) (ni nj : Node)
    (hi : h'.nodeRef i = some ni) (hj : h'.nodeRef j = some nj)
    (hij : i < j) : nj.weight ≤ ni.weight := by
  have hwf : WF h' := insertSeq_WF syms Huffman.adaptive h' WF_adaptive hrun
  obtain ⟨hcore, -, ho⟩ := (WF_def h').mp hwf
  have hjlt : j < h'.next := by
    by_contra hge
    rw [hcore.pop_ge j (by omega)] at hj
    exact absurd hj (by simp)
  have hord := ho i j hij hjlt
  rw [wAt_eq_weight hi, wAt_eq_weight hj] at hord
  exact hord

/-- C5: after every `insert` call (any symbol sequence from the initial
adaptive state), every populated internal node weighs exactly the sum of its
two children's weights, and `symbol_index` maps every populated leaf's
symbol to that leaf's own arena slot. -/
theorem c5_insert_tree_consistency (syms : List Nat) (h' : Huffman)
    (hrun : Huffman.adaptive.insertSeq syms = some h') :
    (∀ i pp l r w, h'.nodeRef i = some (.internal pp l r w) →
      ∃ nl nr, h'.nodeRef l = some nl ∧ h'.nodeRef r = some nr ∧
        w = nl.weight + nr.weight) ∧
    (∀ i p w s, h'.nodeRef i = some (.leaf p w s) →
      h'.symbol_index.get? s = some (some i)) := by
  have hwf : WF h' := insertSeq_WF syms Huffman.adaptive h' WF_adaptive hrun
  obtain ⟨hcore, hsums, -⟩ := (WF_def h').mp hwf
  constructor
  · intro i pp l r w hint
    have hsum := hsums i pp l r w hint
    rw [if_neg (by simp)] at hsum
    obtain ⟨-, -, -, ⟨nl, hnl, -⟩, ⟨nr, hnr, -⟩⟩ :=
      hcore.child_link i pp l r w hint
    refine ⟨nl, nr, hnl, hnr, ?_⟩
    rw [wAt_eq_weight hnl, wAt_eq_weight hnr] at hsum
    exact hsum
  · intro i p w s hleaf
    exact hcore.leaf_to_sym i p w s hleaf

theorem c4_insert_sibling_property_witness :
    Huffman.adaptive.insertSeq [97, 98] =
      some ((Huffman.adaptive.insertSeq [97, 98]).getD Huffman.adaptive) ∧
    ((Huffman.adaptive.insertSeq [97, 98]).getD Huffman.adaptive).nodeRef 0 =
      some (.internal none 2 1 2) ∧
    ((Huffman.adaptive.insertSeq [97, 98]).getD Huffman.adaptive).nodeRef 3 =
      some (.leaf 2 1 98) ∧
    (Node.leaf 2 1 98 : Node).weight ≤
      (Node.internal none 2 1 2 : Node).weight :=
  ⟨by rfl, by rfl, by rfl,
    c4_insert_sibling_property [97, 98] _ (by rfl) 0 3 _ _ (by rfl) (by rfl)
      (by decide)⟩

theorem c5_insert_tree_consistency_witness :
    Huffman.adaptive.insertSeq [97] =
      some ((Huffman.adaptive.insertSeq [97]).getD Huffman.adaptive) ∧
    ((Huffman.adaptive.insertSeq [97]).getD Huffman.adaptive).nodeRef 0 =
      some (.internal none 2 1 1) ∧
    (∃ nl nr,
      ((Huffman.adaptive.insertSeq [97]).getD Huffman.adaptive).nodeRef 2 =
        some nl ∧
      ((Huffman.adaptive.insertSeq [97]).getD Huffman.adaptive).nodeRef 1 =
        some nr ∧ 1 = nl.weight + nr.weight) ∧
    ((Huffman.adaptive.insertSeq [97]).getD
      Huffman.adaptive).symbol_index.get? 97 = some (some 1) :=
  ⟨by rfl, by rfl,
    (c5_insert_tree_consistency [97] _ (by rfl)).1 0 none 2 1 1 (by rfl),
    (c5_insert_tree_consistency [97] _ (by rfl)).2 1 0 1 97 (by rfl)⟩

end Q3
